import Mathlib

/-!
Verification of the lectio/link link-harvesting library.

The Go sources are shallowly embedded here.  Go strings are byte strings,
modelled as `List Nat` (each byte `< 256` where it matters); Go's
`net/url` query helpers (`QueryEscape`, `QueryUnescape`, `ParseQuery`,
`Values.Encode`) are translated byte for byte from the standard library,
since `cleanLink` (src/link.go) relies on them.  External effects
(`http.Get`, `mime.ParseMediaType`, file IO outcomes) are supplied as
explicit oracle values, so every function stays executable and total;
the unbounded HTML-redirect recursion of `HarvestLink` is bounded by an
explicit fuel parameter (the Go code has no cycle guard; every claim
proved here holds for all fuel values).
-/

namespace Lectio

/-- Go strings are byte strings; we model them as lists of naturals. -/
abbrev GoStr := List Nat

/-- Byte string of an ASCII Lean string literal. -/
def goStr (s : String) : GoStr := s.data.map Char.toNat

/-- All bytes of a byte string are in range. -/
def BytesLT (s : GoStr) : Prop := ∀ b ∈ s, b < 256

instance (s : GoStr) : Decidable (BytesLT s) := by
  unfold BytesLT; infer_instance

/-! ### net/url: query escaping (QueryEscape / QueryUnescape)

Translated from Go `net/url` (`shouldEscape` with mode
`encodeQueryComponent`, `escape`, `unescape`).  `QueryEscape` keeps
alphanumerics and `-_.~`, maps a space to `+`, and escapes every other
byte as `%XX` with upper-case hex digits.  `QueryUnescape` decodes `%XX`
(accepting either case) and maps `+` back to a space, failing on a bad
`%` sequence. -/

/-- Bytes left unescaped by `QueryEscape` (Go `shouldEscape`,
`encodeQueryComponent` mode, returning false). -/
def isUnreservedB (b : Nat) : Prop :=
  (48 ≤ b ∧ b ≤ 57) ∨ (65 ≤ b ∧ b ≤ 90) ∨ (97 ≤ b ∧ b ≤ 122) ∨
    b = 45 ∨ b = 46 ∨ b = 95 ∨ b = 126

instance (b : Nat) : Decidable (isUnreservedB b) := by
  unfold isUnreservedB; infer_instance

/-- Upper-case hex digit byte for a nibble (Go `"0123456789ABCDEF"[n]`). -/
def hexDigitUpper (n : Nat) : Nat := if n < 10 then 48 + n else 55 + n

/-- Escape one byte as `QueryEscape` does. -/
def escByte (b : Nat) : GoStr :=
  if isUnreservedB b then [b]
  else if b = 32 then [43]
  else [37, hexDigitUpper (b / 16), hexDigitUpper (b % 16)]

/-- Go `url.QueryEscape`. -/
def queryEscape (s : GoStr) : GoStr := s.flatMap escByte

/-- Value of a hex digit byte (Go `unhex`, either case). -/
def hexVal (b : Nat) : Option Nat :=
  if 48 ≤ b ∧ b ≤ 57 then some (b - 48)
  else if 65 ≤ b ∧ b ≤ 70 then some (b - 55)
  else if 97 ≤ b ∧ b ≤ 102 then some (b - 87)
  else none

/-- Go `url.QueryUnescape`: decode `%XX`, map `+` to space, error
(`none`) on a malformed `%` sequence. -/
def queryUnescape : GoStr → Option GoStr
  | [] => some []
  | c :: rest =>
    if c = 37 then
      match rest with
      | a :: b :: rest' =>
        match hexVal a, hexVal b with
        | some x, some y => (queryUnescape rest').map (fun t => (16 * x + y) :: t)
        | _, _ => none
      | _ => none
    else if c = 43 then (queryUnescape rest).map (fun t => 32 :: t)
    else (queryUnescape rest).map (fun t => c :: t)

/-! ### net/url: Values, ParseQuery, Encode

Go's `url.Values` is a `map[string][]string`; we model it as an
association list with unique keys (the operations below maintain key
uniqueness, mirroring map semantics; `Encode` sorts the keys, so the
entry order is never observable). -/

/-- Model of `url.Values`. -/
abbrev Values := List (GoStr × List GoStr)

/-- Go `m[key] = append(m[key], value)` on the association-list model. -/
def addValue (m : Values) (k v : GoStr) : Values :=
  match m with
  | [] => [(k, [v])]
  | (k', vs) :: rest =>
    if k' = k then (k', vs ++ [v]) :: rest else (k', vs) :: addValue rest k v

/-- Map lookup. -/
def lookupV (m : Values) (k : GoStr) : Option (List GoStr) :=
  match m with
  | [] => none
  | (k', vs) :: rest => if k' = k then some vs else lookupV rest k

/-- Go `Values.Del` (delete a key outright). -/
def delValue (m : Values) (k : GoStr) : Values :=
  m.filter (fun kv => decide (¬ kv.1 = k))

/-- Go `strings.Cut` at the first occurrence of a byte: `(before, after)`,
with `after = []` when the byte is absent. -/
def goCut (s : GoStr) (sep : Nat) : GoStr × GoStr :=
  match s with
  | [] => ([], [])
  | c :: rest =>
    if c = sep then ([], rest)
    else
      let p := goCut rest sep
      (c :: p.1, p.2)

/-- One iteration of Go's `parseQuery` loop: a `&`-separated segment is
skipped when it contains `;`, is empty, or fails unescaping; otherwise
it is cut at the first `=` and both halves are unescaped. -/
def parseSeg (m : Values) (seg : GoStr) : Values :=
  if 59 ∈ seg then m
  else if seg = [] then m
  else
    let p := goCut seg 61
    match queryUnescape p.1, queryUnescape p.2 with
    | some k, some v => addValue m k v
    | _, _ => m

/-- Go `url.ParseQuery` (current stdlib semantics: the
`strings.Cut(query, "&")` loop is a split on `&`; segments containing
`;` are rejected), with the error return dropped as in `URL.Query()`. -/
def parseQuery (s : GoStr) : Values := (s.splitOn 38).foldl parseSeg []

/-- Byte-wise (lexicographic) string order used by `sort.Strings`. -/
def leB : GoStr → GoStr → Bool
  | [], _ => true
  | _ :: _, [] => false
  | a :: as_, b :: bs =>
    if a < b then true else if b < a then false else leB as_ bs

/-- Go `Encode` iterates keys in sorted order; on the association list this
is a sort of the entries by key. -/
def sortByKey (m : Values) : Values :=
  m.insertionSort (fun x y => leB x.1 y.1 = true)

/-- Flatten a `Values` into its key/value pairs in entry order. -/
def flatPairsV (m : Values) : List (GoStr × GoStr) :=
  m.flatMap (fun kv => kv.2.map (fun v => (kv.1, v)))

/-- Go `url.Values.Encode`: keys sorted, each pair rendered
`escape(k)=escape(v)`, joined with `&`. -/
def encodeValues (m : Values) : GoStr :=
  List.intercalate [38]
    ((flatPairsV (sortByKey m)).map (fun kv => queryEscape kv.1 ++ 61 :: queryEscape kv.2))

/-! ### net/url: the URL structure

Only the raw query is structurally relevant to the claims; the part of
the serialized URL before the query (scheme, host, escaped path) is kept
opaque, and the fragment separate, mirroring how `URL.String` emits
`prefix ?query #fragment` and `url.Parse` cuts the fragment at the first
`#` and the query at the first `?`.  URLs produced by Go's `url.Parse`
never serialize a raw `?` or `#` ahead of the separators (path and host
escaping guarantees it); `wfURL` captures that guarantee.  `url.Parse`
error cases (invalid control bytes etc.) are not representable at this
granularity, so the parse is total; the corresponding dead error branch
of `cleanLink` is noted there. -/

structure GoURL where
  pre : GoStr
  rawQuery : GoStr
  frag : GoStr
deriving DecidableEq

/-- Go `URL.String()` restricted to this model. -/
def urlString (u : GoURL) : GoStr :=
  u.pre ++ (if u.rawQuery = [] then [] else 63 :: u.rawQuery) ++
    (if u.frag = [] then [] else 35 :: u.frag)

/-- Go `url.Parse` restricted to this model: fragment cut at the first
`#`, query cut at the first `?`. -/
def urlParse (s : GoStr) : GoURL :=
  let pf := goCut s 35
  let pq := goCut pf.1 63
  ⟨pq.1, pq.2, pf.2⟩

/-- Well-formedness delivered by Go's `url.Parse`: no raw `?`/`#` before
the query separator, no raw `#` inside the query, query bytes in range. -/
def wfURL (u : GoURL) : Prop :=
  (∀ b ∈ u.pre, b ≠ 63 ∧ b ≠ 35) ∧ (∀ b ∈ u.rawQuery, b < 256 ∧ b ≠ 35)

instance (u : GoURL) : Decidable (wfURL u) := by
  unfold wfURL; infer_instance

/-! ### src/link.go: cleanLink -/

/-- The `CleanLinkParamsRule` capability consumed by `cleanLink`
(src/link.go): a per-URL gate and a per-parameter removal decision with
a reason. -/
structure CleanLinkParamsRule where
  cleanLinkParams : GoURL → Bool
  removeQueryParamFromLinkURL : GoStr → Bool × GoStr

/-- src/link.go `cleanLink`: if the rule gates the URL in, re-parse the
serialized URL as a working copy, delete every query parameter the rule
rejects, and return the copy with the re-encoded query only when at
least one parameter was removed.  (The Go `url.Parse` error branch
returning `(false, nil)` is dead in this model because the modelled
parse is total.) -/
def cleanLink (url : GoURL) (rule : CleanLinkParamsRule) : Bool × Option GoURL :=
  if rule.cleanLinkParams url = false then (false, none)
  else
    let CleanedURL := urlParse (urlString url)
    let harvestedParams := parseQuery CleanedURL.rawQuery
    let cleanedParams :=
      harvestedParams.filter (fun kv => (rule.removeQueryParamFromLinkURL kv.1).1)
    let remaining :=
      harvestedParams.filter (fun kv => !(rule.removeQueryParamFromLinkURL kv.1).1)
    if cleanedParams = [] then (false, none)
    else (true, some { CleanedURL with rawQuery := encodeValues remaining })

/-! ### src/content.go: the meta-refresh regex

`metaRefreshContentRegEx = regexp.MustCompile("^(\\d?)\\s?;\\s?url=(.*)$")`
matched against the trimmed `content` attribute value.  RE2 semantics:
`\d` is `[0-9]`, `\s` is `[\t\n\f\r ]`, `.` is any character except
newline, and the whole pattern is anchored.  Each optional element is a
single character, and a digit/whitespace head can never be consumed by a
later regex element, so greedy one-character lookahead implements the
regex exactly; the capture of group 2 is everything after `url=`. -/

/-- RE2 `\d`. -/
def isDigitB (b : Nat) : Bool := decide (48 ≤ b ∧ b ≤ 57)

/-- RE2 `\s` (= `[\t\n\f\r ]`, no vertical tab). -/
def isSpaceB (b : Nat) : Bool := decide (b = 9 ∨ b = 10 ∨ b = 12 ∨ b = 13 ∨ b = 32)

/-- Drop at most one leading byte satisfying `p` (regex `x?`). -/
def dropOpt (p : Nat → Bool) : GoStr → GoStr
  | [] => []
  | b :: rest => if p b then rest else b :: rest

/-- src/content.go `metaRefreshContentRegEx` applied by
`parsePageMetaData`: returns the second capture group (the redirect
target) when the content value matches. -/
def metaRefreshContentMatch (s : GoStr) : Option GoStr :=
  let s1 := dropOpt isDigitB s
  let s2 := dropOpt isSpaceB s1
  match s2 with
  | [] => none
  | c :: s3 =>
    if c = 59 then
      let s4 := dropOpt isSpaceB s3
      if s4.take 4 = goStr "url=" then
        let rest := s4.drop 4
        if 10 ∈ rest then none else some rest
      else none
    else none

/-- The matching rule as the spec's words describe it (claim C3):
optional leading digit(s), optional whitespace, a semicolon, optional
whitespace, the literal `url=`, and the rest of the string captured as
the target. -/
def specMetaRefreshMatch (s : GoStr) : Option GoStr :=
  let s1 := s.dropWhile isDigitB
  let s2 := s1.dropWhile isSpaceB
  match s2 with
  | 59 :: s3 =>
    let s4 := s3.dropWhile isSpaceB
    if s4.take 4 = goStr "url=" then some (s4.drop 4) else none
  | _ => none

/-! ### src/content.go: HTML meta scanning

`golang.org/x/net/html` is an external capability: it yields a tree of
nodes, each with a kind, a tag/text name, attributes and children.
`parsePageMetaData` walks that tree depth first with a closure-captured
`inHead` flag that is set on the first `head` element and never reset;
we thread `(inHead, collected-metadata)` through the walk in the same
order. -/

/-- A parsed HTML node (`html.Node`): element flag, tag name,
attributes (key/value) and children. -/
inductive HtmlNode where
  | mk (isElement : Bool) (dat : GoStr) (attrs : List (GoStr × GoStr))
       (children : List HtmlNode)

/-- ASCII branch of Go `strings.EqualFold` (attribute names compared by
the source are ASCII). -/
def toLowerB (b : Nat) : Nat := if 65 ≤ b ∧ b ≤ 90 then b + 32 else b

/-- Case-insensitive byte-string comparison. -/
def equalFoldB (a b : GoStr) : Bool := decide (a.map toLowerB = b.map toLowerB)

/-- Bytes trimmed by Go `strings.TrimSpace` (ASCII range). -/
def isTrimSpaceB (b : Nat) : Bool :=
  decide (b = 9 ∨ b = 10 ∨ b = 11 ∨ b = 12 ∨ b = 13 ∨ b = 32)

/-- Go `strings.TrimSpace` on byte strings. -/
def goTrimSpace (s : GoStr) : GoStr :=
  ((s.dropWhile isTrimSpaceB).reverse.dropWhile isTrimSpaceB).reverse

/-- State threaded through the `parsePageMetaData` tree walk. -/
structure MetaScan where
  inHead : Bool
  isHTMLRedirect : Bool
  metaRefreshTagContentURLText : GoStr
  metaPropertyTags : List (GoStr × GoStr)
deriving DecidableEq

/-- Go map assignment `m[k] = v` on an association list. -/
def upsert (m : List (GoStr × GoStr)) (k v : GoStr) : List (GoStr × GoStr) :=
  match m with
  | [] => [(k, v)]
  | (k', v') :: rest =>
    if k' = k then (k, v) :: rest else (k', v') :: upsert rest k v

/-- The body of the inner `content` scan for a refresh tag: run the
regex on the trimmed value and record the redirect when it matches. -/
def applyRefreshContent (st : MetaScan) (contentVal : GoStr) : MetaScan :=
  match metaRefreshContentMatch (goTrimSpace contentVal) with
  | some target =>
    { st with isHTMLRedirect := true, metaRefreshTagContentURLText := target }
  | none => st

/-- One iteration of the outer attribute loop of `parsePageMetaData`:
an `http-equiv="refresh"` attribute triggers an inner loop over all
`content` attributes through the regex; a `property`/`name` attribute
records every `content` attribute under that property name. -/
def metaAttrStep (attrs : List (GoStr × GoStr)) (st : MetaScan)
    (attr : GoStr × GoStr) : MetaScan :=
  let st1 :=
    if equalFoldB attr.1 (goStr "http-equiv") &&
        equalFoldB (goTrimSpace attr.2) (goStr "refresh") then
      attrs.foldl
        (fun s a =>
          if equalFoldB a.1 (goStr "content") then applyRefreshContent s a.2 else s)
        st
    else st
  if equalFoldB attr.1 (goStr "property") || equalFoldB attr.1 (goStr "name") then
    attrs.foldl
      (fun s a =>
        if equalFoldB a.1 (goStr "content") then
          { s with metaPropertyTags := upsert s.metaPropertyTags attr.2 a.2 }
        else s)
      st1
  else st1

mutual

/-- The recursive closure `f` of `parsePageMetaData`, node case. -/
def visitNode (n : HtmlNode) (st : MetaScan) : MetaScan :=
  match n with
  | .mk isElem dat attrs children =>
    let st1 :=
      if isElem && equalFoldB dat (goStr "head") then { st with inHead := true }
      else st
    let st2 :=
      if st1.inHead && isElem && equalFoldB dat (goStr "meta") then
        attrs.foldl (metaAttrStep attrs) st1
      else st1
    visitList children st2

/-- Children are visited in order, threading the shared state. -/
def visitList (ns : List HtmlNode) (st : MetaScan) : MetaScan :=
  match ns with
  | [] => st
  | n :: rest => visitList rest (visitNode n st)

end

/-! ### src/attachment.go -/

/-- The `h2non/filetype` `types.Type` (only the fields the source reads). -/
structure GoFileType where
  mimeValue : GoStr
  extension : GoStr
deriving DecidableEq

/-- src/attachment.go `Attachment`. -/
structure Attachment where
  url : GoURL
  destPath : GoStr
  fileType : GoFileType
  downloadError : Option GoStr
  fileTypeError : Option GoStr
deriving DecidableEq

/-- src/attachment.go `Attachment.IsValid`. -/
def Attachment.IsValid (a : Attachment) : Bool :=
  decide (a.downloadError = none) && decide (a.fileTypeError = none)

/-- Outcomes of the OS/IO calls `downloadFile` performs, supplied as an
oracle: the `io.Copy` error, the `os.Open` error, and the result of
`filetype.Match` on the 261-byte header. -/
structure DownloadFx where
  copyErr : Option GoStr
  openErr : Option GoStr
  ftMatch : GoFileType × Option GoStr

/-- Go `path.Ext`: the suffix of the final slash-separated element
starting at its last dot, empty when there is no dot. -/
def pathExt (p : GoStr) : GoStr :=
  let seg := p.reverse.takeWhile (fun b => decide (¬ b = 47))
  if 46 ∈ seg then ((seg.takeWhile (fun b => decide (¬ b = 46))) ++ [46]).reverse
  else []

/-- src/attachment.go `downloadFile`: stream the body to `destFileName`,
reopen and sniff the header, and on a successful sniff rename the file
so its extension matches the detected type.  Returns the attachment
record and the rename performed on disk (old path, new path), if any. -/
def downloadFile (u : GoURL) (destFileName : GoStr) (fx : DownloadFx) :
    Attachment × Option (GoStr × GoStr) :=
  match fx.copyErr with
  | some e => (⟨u, destFileName, ⟨[], []⟩, some e, none⟩, none)
  | none =>
    match fx.openErr with
    | some e => (⟨u, destFileName, ⟨[], []⟩, none, some e⟩, none)
    | none =>
      let ft := fx.ftMatch.1
      match fx.ftMatch.2 with
      | some e => (⟨u, destFileName, ft, none, some e⟩, none)
      | none =>
        let newPath :=
          destFileName.take (destFileName.length - (pathExt destFileName).length) ++
            46 :: ft.extension
        (⟨u, newPath, ft, none, none⟩, some (destFileName, newPath))

/-! ### src/content.go: Content and MakeContent -/

/-- src/content.go `Content`. -/
structure Content where
  url : GoURL
  contentType : GoStr
  mediaType : GoStr
  mediaTypeParams : List (GoStr × GoStr)
  mediaTypeError : Option GoStr
  htmlParsed : Bool
  htmlParseError : Option GoStr
  isHTMLRedirect : Bool
  metaRefreshTagContentURLText : GoStr
  metaPropertyTags : List (GoStr × GoStr)
  attachment : Option Attachment
deriving DecidableEq

/-- src/content.go `Content.IsHTML`. -/
def Content.IsHTML (c : Content) : Bool := decide (c.mediaType = goStr "text/html")

/-- src/content.go `Content.IsContentBasedRedirect`. -/
def Content.IsContentBasedRedirect (c : Content) : Bool × GoStr :=
  (c.isHTMLRedirect, c.metaRefreshTagContentURLText)

/-- An `http.Response` as consumed by the source: final status code,
the request URL after HTTP-level redirects, the `Content-Type` header
value (empty byte string when absent — `Header.Get` returns `""` for a
missing header), and the `html.Parse` outcome for the body. -/
structure Resp where
  statusCode : Nat
  requestURL : GoURL
  contentType : GoStr
  body : Except GoStr HtmlNode

/-- src/content.go `parsePageMetaData` on a `Content`: parse the body
(an error is recorded and aborts the scan), then walk the tree. -/
def parsePageMetaData (c : Content) (resp : Resp) : Content :=
  match resp.body with
  | .error e => { c with htmlParseError := some e }
  | .ok doc =>
    let st := visitNode doc
      ⟨false, c.isHTMLRedirect, c.metaRefreshTagContentURLText, c.metaPropertyTags⟩
    { c with
      isHTMLRedirect := st.isHTMLRedirect
      metaRefreshTagContentURLText := st.metaRefreshTagContentURLText
      metaPropertyTags := st.metaPropertyTags }

/-- The `DestinationRule` capability (src/config.go interface
`DestinationPolicy` as consumed by src/link.go and src/content.go). -/
structure DestinationRule where
  followRedirectsInDestinationHTMLContent : GoURL → Bool
  parseMetaDataInDestinationHTMLContent : GoURL → Bool
  downloadAttachmentsFromDestination : GoURL → Bool × GoStr

/-- Oracle outcomes for the IO performed while building a `Content`:
`mime.ParseMediaType` (external stdlib capability), `ioutil.TempFile`,
`os.Create`, and the per-download outcomes. -/
structure ContentFx where
  parseMediaType : GoStr → Except GoStr (GoStr × List (GoStr × GoStr))
  tempFile : Except GoStr GoStr
  createErr : Option GoStr
  dfx : DownloadFx

/-- src/attachment.go `downloadTemp`. -/
def downloadTemp (u : GoURL) (fx : ContentFx) : Attachment :=
  match fx.tempFile with
  | .error e => ⟨u, [], ⟨[], []⟩, some e, none⟩
  | .ok nm => (downloadFile u nm fx.dfx).1

/-- src/attachment.go `download` (named destination file). -/
def download (u : GoURL) (pathAndFileName : GoStr) (fx : ContentFx) : Attachment :=
  match fx.createErr with
  | some e => ⟨u, [], ⟨[], []⟩, some e, none⟩
  | none => (downloadFile u pathAndFileName fx.dfx).1

/-- The shared tail of `MakeContent`: ask the destination rule whether
to download an attachment and do so (to a temp file when no destination
name is configured). -/
def attachStep (u : GoURL) (destRule : DestinationRule) (fx : ContentFx)
    (c : Content) : Content :=
  let dl := destRule.downloadAttachmentsFromDestination u
  if dl.1 then
    if dl.2 = [] then { c with attachment := some (downloadTemp u fx) }
    else { c with attachment := some (download u dl.2 fx) }
  else c

/-- src/content.go `MakeContent`: record the Content-Type header; when
present, parse it as a media type (a parse error aborts classification);
HTML content whose URL the policy wants scanned gets its meta data
parsed; everything else falls through to the attachment decision. -/
def MakeContent (u : GoURL) (resp : Resp) (destRule : DestinationRule)
    (fx : ContentFx) : Content :=
  let c0 : Content := ⟨u, resp.contentType, [], [], none, false, none, false, [], [], none⟩
  if resp.contentType = [] then attachStep u destRule fx c0
  else
    match fx.parseMediaType resp.contentType with
    | .error e => { c0 with mediaTypeError := some e }
    | .ok mp =>
      let c1 := { c0 with mediaType := mp.1, mediaTypeParams := mp.2 }
      if c1.IsHTML &&
          (destRule.followRedirectsInDestinationHTMLContent u ||
            destRule.parseMetaDataInDestinationHTMLContent u) then
        { parsePageMetaData c1 resp with htmlParsed := true }
      else attachStep u destRule fx c1

/-! ### src/config.go: the ignore policy -/

/-- One compiled ignore regex: its pattern text plus its (opaque)
matching function. -/
structure IgnoreRuleRegex where
  pattern : GoStr
  test : GoStr → Bool

/-- src/config.go `Configuration.IgnoreLink`: the full URL string is
tested against the ordered regex list; the first match wins and the
reason embeds the matched pattern text. -/
def IgnoreLink (rules : List IgnoreRuleRegex) (u : GoURL) : Bool × GoStr :=
  match rules.find? (fun r => r.test (urlString u)) with
  | some r => (true, goStr "Matched Ignore Rule `" ++ r.pattern ++ goStr "`")
  | none => (false, [])

/-! ### src/link.go: Link and HarvestLink -/

/-- src/link.go `Link` (the `HarvestedOn` timestamp is omitted: wall
clock time is outside the model).  Recursive because of the
`OrigLink` back-reference set when an HTML redirect is followed. -/
inductive Link where
  | mk (origURLText : GoStr) (origLink : Option Link)
       (isURLValid : Bool) (isDestValid : Bool) (httpStatusCode : Nat)
       (isURLIgnored : Bool) (ignoreReason : GoStr)
       (areURLParamsCleaned : Bool)
       (resolvedURL : Option GoURL) (cleanedURL : Option GoURL)
       (finalizedURL : Option GoURL) (content : Option Content)

def Link.origURLText : Link → GoStr
  | .mk a _ _ _ _ _ _ _ _ _ _ _ => a

def Link.origLink : Link → Option Link
  | .mk _ a _ _ _ _ _ _ _ _ _ _ => a

def Link.isURLValid : Link → Bool
  | .mk _ _ a _ _ _ _ _ _ _ _ _ => a

def Link.isDestValid : Link → Bool
  | .mk _ _ _ a _ _ _ _ _ _ _ _ => a

def Link.httpStatusCode : Link → Nat
  | .mk _ _ _ _ a _ _ _ _ _ _ _ => a

def Link.isURLIgnored : Link → Bool
  | .mk _ _ _ _ _ a _ _ _ _ _ _ => a

def Link.ignoreReason : Link → GoStr
  | .mk _ _ _ _ _ _ a _ _ _ _ _ => a

def Link.areURLParamsCleaned : Link → Bool
  | .mk _ _ _ _ _ _ _ a _ _ _ _ => a

def Link.resolvedURL : Link → Option GoURL
  | .mk _ _ _ _ _ _ _ _ a _ _ _ => a

def Link.cleanedURL : Link → Option GoURL
  | .mk _ _ _ _ _ _ _ _ _ a _ _ => a

def Link.finalizedURL : Link → Option GoURL
  | .mk _ _ _ _ _ _ _ _ _ _ a _ => a

def Link.content : Link → Option Content
  | .mk _ _ _ _ _ _ _ _ _ _ _ a => a

/-- The `redirected.OrigLink = result` assignment of src/link.go (overwrites the field). -/
def Link.withOrigLink : Link → Option Link → Link
  | .mk a _ c d e f g h i j k l, o => .mk a o c d e f g h i j k l

/-- The world a harvest runs in: the outcome of `http.Get` for each URL
text, and the content/IO oracles. -/
structure World where
  httpGet : GoStr → Except GoStr Resp
  cfx : ContentFx

/-- Message `fmt.Sprintf("Invalid URL %q (%v)", origURLtext, err)` (the `%q`
escaping is taken at face value for printable text). -/
def invalidURLReason (orig e : GoStr) : GoStr :=
  goStr "Invalid URL \x22" ++ orig ++ goStr "\x22 (" ++ e ++ goStr ")"

/-- Decimal rendering for `%d`. -/
def natToGoStr (n : Nat) : GoStr := goStr (toString n)

/-- Message `fmt.Sprintf("Invalid HTTP Status Code %d", resp.StatusCode)`. -/
def invalidStatusReason (code : Nat) : GoStr :=
  goStr "Invalid HTTP Status Code " ++ natToGoStr code

/-- src/link.go `HarvestLink`, with the HTML-redirect recursion bounded
by fuel (the Go code recurses unboundedly; at zero fuel the redirect is
simply not followed, every other path is the Go control flow verbatim):
fetch, record fetch/status failures as ignored results, apply the ignore
rule, clean the query parameters, classify the content, and follow an
HTML meta-refresh redirect by harvesting the target and chaining the
current record as its `origLink`. -/
def HarvestLink : Nat → World → CleanLinkParamsRule → (GoURL → Bool × GoStr) →
    DestinationRule → GoStr → Link
  | fuel, w, cleanRule, ignoreRule, destRule, origURLtext =>
    match w.httpGet origURLtext with
    | .error e =>
      .mk origURLtext none false false 0 true (invalidURLReason origURLtext e)
        false none none none none
    | .ok resp =>
      if resp.statusCode ≠ 200 then
        .mk origURLtext none true false resp.statusCode true
          (invalidStatusReason resp.statusCode) false none none none none
      else
        let resolved := resp.requestURL
        let ig := ignoreRule resolved
        if ig.1 then
          .mk origURLtext none true true resp.statusCode true ig.2 false
            (some resolved) none (some resolved) none
        else
          let rc := cleanLink resolved cleanRule
          let finO := if rc.1 then rc.2 else some resolved
          let finU := finO.getD resolved
          let cont := MakeContent finU resp destRule w.cfx
          let base :=
            Link.mk origURLtext none true true resp.statusCode false [] rc.1
              (some resolved) (if rc.1 then rc.2 else none) finO (some cont)
          if destRule.followRedirectsInDestinationHTMLContent finU then
            if cont.isHTMLRedirect then
              match fuel with
              | 0 => base
              | fuel' + 1 =>
                (HarvestLink fuel' w cleanRule ignoreRule destRule
                    cont.metaRefreshTagContentURLText).withOrigLink (some base)
            else base
          else base

/-! ### Auxiliary notions used to state the claims -/

/-- Keys of a `Values`. -/
def keysOf (m : Values) : List GoStr := m.map Prod.fst

/-- Values recorded for a key in a flat pair list, in order. -/
def valsOf (k : GoStr) (pairs : List (GoStr × GoStr)) : List GoStr :=
  (pairs.filter (fun kv => decide (kv.1 = k))).map Prod.snd

/-- Invariants every `url.Values` arising from `ParseQuery` enjoys:
keys unique (it is a Go map), every entry holds at least one value, and
all bytes are in range. -/
def ValuesWF (m : Values) : Prop :=
  (keysOf m).Nodup ∧ (∀ kv ∈ m, kv.2 ≠ []) ∧
    (∀ kv ∈ m, BytesLT kv.1 ∧ ∀ v ∈ kv.2, BytesLT v)

/-- Heap-explicit rendering of src/link.go `cleanLink`, making the Go
pointer discipline visible: URL objects live in a store (`List GoURL`)
and are referred to by index.  The function reads the caller's URL,
allocates the working copy with `url.Parse(url.String())`, and performs
every mutation (`Del`, the `RawQuery` assignment) on the copy's cell;
it returns the final store, the `changed` flag, and the pointer to the
cleaned URL, if any. -/
def cleanLinkHeap (h : List GoURL) (p : Nat) (rule : CleanLinkParamsRule) :
    List GoURL × Bool × Option Nat :=
  let u := h.getD p ⟨[], [], []⟩
  if rule.cleanLinkParams u = false then (h, false, none)
  else
    let q := h.length
    let copy := urlParse (urlString u)
    let h1 := h ++ [copy]
    let harvestedParams := parseQuery copy.rawQuery
    let cleanedParams :=
      harvestedParams.filter (fun kv => (rule.removeQueryParamFromLinkURL kv.1).1)
    let remaining :=
      harvestedParams.filter (fun kv => !(rule.removeQueryParamFromLinkURL kv.1).1)
    if cleanedParams = [] then (h1, false, none)
    else (h1.set q { copy with rawQuery := encodeValues remaining }, true, some q)

/-- The claim-C4 record invariant: the cleaned URL is present exactly
when cleaning is recorded, and the finalized URL is the cleaned URL
when cleaning occurred and the resolved URL otherwise. -/
def CleanFieldsOK (l : Link) : Prop :=
  (l.cleanedURL ≠ none ↔ l.areURLParamsCleaned = true) ∧
  l.finalizedURL =
    (if l.areURLParamsCleaned then l.cleanedURL else l.resolvedURL)

/-! ### Concrete fixtures (used only by the witness theorems) -/

def sampleFT : GoFileType := ⟨goStr "application/pdf", goStr "pdf"⟩

def sampleDfx : DownloadFx := ⟨none, none, (sampleFT, none)⟩

def sampleCfx : ContentFx :=
  ⟨fun _ => Except.error (goStr "mime: no media type"),
    Except.error (goStr "tempfile failed"), none, sampleDfx⟩

def sampleDest : DestinationRule := ⟨fun _ => true, fun _ => true, fun _ => (false, [])⟩

def sampleClean : CleanLinkParamsRule :=
  ⟨fun _ => true, fun k => ((goStr "utm_").isPrefixOf k, goStr "cleaner")⟩

def sampleIgnoreRule : IgnoreRuleRegex :=
  ⟨goStr "https://t.co", fun s => (goStr "https://t.co").isPrefixOf s⟩

def sampleURL : GoURL := ⟨goStr "https://t.co/abc", [], []⟩

def sampleResp : Resp := ⟨200, sampleURL, [], .error (goStr "eof")⟩

def sampleWorld : World := ⟨fun _ => .ok sampleResp, sampleCfx⟩

def errWorld : World := ⟨fun _ => .error (goStr "dial tcp: no such host"), sampleCfx⟩

def notFoundWorld : World :=
  ⟨fun _ => .ok ⟨404, sampleURL, [], .error (goStr "eof")⟩, sampleCfx⟩

def sampleCleanURL : GoURL :=
  ⟨goStr "https://example.com/p", goStr "utm_source=x&b=2", []⟩

def sampleNoCleanURL : GoURL :=
  ⟨goStr "https://example.com/p", goStr "a=1&b=2", []⟩

/-! ## Theorems -/

/-- Dropping an optional head byte when it matches. -/
theorem dropOpt_head_true (p : Nat → Bool) (b : Nat) (l : GoStr) (h : p b = true) :
    dropOpt p (b :: l) = l := by
  simp [dropOpt, h]

/-- Dropping an optional head byte when it does not match. -/
theorem dropOpt_head_false (p : Nat → Bool) (b : Nat) (l : GoStr) (h : p b = false) :
    dropOpt p (b :: l) = b :: l := by
  simp [dropOpt, h]

/-- Every byte string splits as the (at most one byte long) dropped
part followed by the remainder. -/
theorem dropOpt_decomp (p : Nat → Bool) (s : GoStr) :
    ∃ d, (d = [] ∨ ∃ b, p b = true ∧ d = [b]) ∧ s = d ++ dropOpt p s := by
  cases s with
  | nil => exact ⟨[], Or.inl rfl, rfl⟩
  | cons b l =>
    by_cases hp : p b = true
    · exact ⟨[b], Or.inr ⟨b, hp, rfl⟩, by simp [dropOpt, hp]⟩
    · refine ⟨[], Or.inl rfl, ?_⟩
      simp [dropOpt, hp]

/-- RE2 whitespace bytes are not digit bytes. -/
theorem space_not_digit (b : Nat) (h : isSpaceB b = true) : isDigitB b = false := by
  simp only [isSpaceB, decide_eq_true_eq] at h
  rcases h with rfl | rfl | rfl | rfl | rfl <;> decide

/-- The body of `HarvestLink`, unfolded once (the definition is by fuel recursion;
this is its single defining equation, stated for rewriting). -/
theorem HarvestLink_eq (fuel : Nat) (w : World) (cleanRule : CleanLinkParamsRule)
    (ignoreRule : GoURL → Bool × GoStr) (destRule : DestinationRule)
    (origURLtext : GoStr) :
    HarvestLink fuel w cleanRule ignoreRule destRule origURLtext =
      match w.httpGet origURLtext with
      | .error e =>
        .mk origURLtext none false false 0 true (invalidURLReason origURLtext e)
          false none none none none
      | .ok resp =>
        if resp.statusCode ≠ 200 then
          .mk origURLtext none true false resp.statusCode true
            (invalidStatusReason resp.statusCode) false none none none none
        else
          let resolved := resp.requestURL
          let ig := ignoreRule resolved
          if ig.1 then
            .mk origURLtext none true true resp.statusCode true ig.2 false
              (some resolved) none (some resolved) none
          else
            let rc := cleanLink resolved cleanRule
            let finO := if rc.1 then rc.2 else some resolved
            let finU := finO.getD resolved
            let cont := MakeContent finU resp destRule w.cfx
            let base :=
              Link.mk origURLtext none true true resp.statusCode false [] rc.1
                (some resolved) (if rc.1 then rc.2 else none) finO (some cont)
            if destRule.followRedirectsInDestinationHTMLContent finU then
              if cont.isHTMLRedirect then
                match fuel with
                | 0 => base
                | fuel' + 1 =>
                  (HarvestLink fuel' w cleanRule ignoreRule destRule
                      cont.metaRefreshTagContentURLText).withOrigLink (some base)
              else base
            else base := by
  rw [HarvestLink]

/-- C1: when the HTTP GET produces no response at all, `HarvestLink`
returns a record with `IsURLValid = false`, `IsDestValid = false`,
`IsURLIgnored = true`, an `IgnoreReason` describing the fetch error
(the error text is embedded in it), absent `Content`, and no further
processing: resolved/cleaned/finalized URLs stay absent and no cleaning
is recorded. -/
theorem harvest_fetch_failure (fuel : Nat) (w : World)
    (cleanRule : CleanLinkParamsRule) (ignoreRule : GoURL → Bool × GoStr)
    (destRule : DestinationRule) (orig e : GoStr)
    (h : w.httpGet orig = .error e) :
    (HarvestLink fuel w cleanRule ignoreRule destRule orig).isURLValid = false ∧
    (HarvestLink fuel w cleanRule ignoreRule destRule orig).isDestValid = false ∧
    (HarvestLink fuel w cleanRule ignoreRule destRule orig).isURLIgnored = true ∧
    (HarvestLink fuel w cleanRule ignoreRule destRule orig).ignoreReason =
      invalidURLReason orig e ∧
    (∃ pre suf, (HarvestLink fuel w cleanRule ignoreRule destRule orig).ignoreReason =
      pre ++ e ++ suf) ∧
    (HarvestLink fuel w cleanRule ignoreRule destRule orig).content = none ∧
    (HarvestLink fuel w cleanRule ignoreRule destRule orig).resolvedURL = none ∧
    (HarvestLink fuel w cleanRule ignoreRule destRule orig).cleanedURL = none ∧
    (HarvestLink fuel w cleanRule ignoreRule destRule orig).finalizedURL = none ∧
    (HarvestLink fuel w cleanRule ignoreRule destRule orig).areURLParamsCleaned = false := by
  rw [HarvestLink_eq, h]
  refine ⟨rfl, rfl, rfl, rfl, ?_, rfl, rfl, rfl, rfl, rfl⟩
  exact ⟨goStr "Invalid URL \x22" ++ orig ++ goStr "\x22 (", goStr ")", by
    simp [Link.ignoreReason, invalidURLReason]⟩

/-- Witness for C1: a concrete world whose fetch fails. -/
theorem harvest_fetch_failure_witness :
    (HarvestLink 5 errWorld sampleClean (IgnoreLink [sampleIgnoreRule]) sampleDest
        (goStr "https://t")).isURLValid = false ∧
    (HarvestLink 5 errWorld sampleClean (IgnoreLink [sampleIgnoreRule]) sampleDest
        (goStr "https://t")).isDestValid = false ∧
    (HarvestLink 5 errWorld sampleClean (IgnoreLink [sampleIgnoreRule]) sampleDest
        (goStr "https://t")).isURLIgnored = true ∧
    (HarvestLink 5 errWorld sampleClean (IgnoreLink [sampleIgnoreRule]) sampleDest
        (goStr "https://t")).ignoreReason =
      invalidURLReason (goStr "https://t") (goStr "dial tcp: no such host") ∧
    (∃ pre suf, (HarvestLink 5 errWorld sampleClean (IgnoreLink [sampleIgnoreRule])
        sampleDest (goStr "https://t")).ignoreReason =
      pre ++ goStr "dial tcp: no such host" ++ suf) ∧
    (HarvestLink 5 errWorld sampleClean (IgnoreLink [sampleIgnoreRule]) sampleDest
        (goStr "https://t")).content = none ∧
    (HarvestLink 5 errWorld sampleClean (IgnoreLink [sampleIgnoreRule]) sampleDest
        (goStr "https://t")).resolvedURL = none ∧
    (HarvestLink 5 errWorld sampleClean (IgnoreLink [sampleIgnoreRule]) sampleDest
        (goStr "https://t")).cleanedURL = none ∧
    (HarvestLink 5 errWorld sampleClean (IgnoreLink [sampleIgnoreRule]) sampleDest
        (goStr "https://t")).finalizedURL = none ∧
    (HarvestLink 5 errWorld sampleClean (IgnoreLink [sampleIgnoreRule]) sampleDest
        (goStr "https://t")).areURLParamsCleaned = false :=
  harvest_fetch_failure 5 errWorld sampleClean (IgnoreLink [sampleIgnoreRule])
    sampleDest (goStr "https://t") (goStr "dial tcp: no such host") rfl

/-- C2: when the fetch succeeds but the status code differs from 200,
`HarvestLink` returns a record with `IsURLValid = true`,
`IsDestValid = false`, `IsURLIgnored = true`, `HTTPStatusCode` equal to
the observed code, the status-code message as `IgnoreReason`, and
absent `Content`. -/
theorem harvest_bad_status (fuel : Nat) (w : World)
    (cleanRule : CleanLinkParamsRule) (ignoreRule : GoURL → Bool × GoStr)
    (destRule : DestinationRule) (orig : GoStr) (resp : Resp)
    (h : w.httpGet orig = .ok resp) (hcode : resp.statusCode ≠ 200) :
    (HarvestLink fuel w cleanRule ignoreRule destRule orig).isURLValid = true ∧
    (HarvestLink fuel w cleanRule ignoreRule destRule orig).isDestValid = false ∧
    (HarvestLink fuel w cleanRule ignoreRule destRule orig).isURLIgnored = true ∧
    (HarvestLink fuel w cleanRule ignoreRule destRule orig).httpStatusCode =
      resp.statusCode ∧
    (HarvestLink fuel w cleanRule ignoreRule destRule orig).ignoreReason =
      invalidStatusReason resp.statusCode ∧
    (HarvestLink fuel w cleanRule ignoreRule destRule orig).content = none := by
  rw [HarvestLink_eq, h]
  simp only [if_pos hcode]
  exact ⟨rfl, rfl, rfl, rfl, rfl, rfl⟩

/-- Witness for C2: a concrete world answering 404. -/
theorem harvest_bad_status_witness :
    (HarvestLink 5 notFoundWorld sampleClean (IgnoreLink [sampleIgnoreRule]) sampleDest
        (goStr "https://t.co/fDxPF")).isURLValid = true ∧
    (HarvestLink 5 notFoundWorld sampleClean (IgnoreLink [sampleIgnoreRule]) sampleDest
        (goStr "https://t.co/fDxPF")).isDestValid = false ∧
    (HarvestLink 5 notFoundWorld sampleClean (IgnoreLink [sampleIgnoreRule]) sampleDest
        (goStr "https://t.co/fDxPF")).isURLIgnored = true ∧
    (HarvestLink 5 notFoundWorld sampleClean (IgnoreLink [sampleIgnoreRule]) sampleDest
        (goStr "https://t.co/fDxPF")).httpStatusCode = 404 ∧
    (HarvestLink 5 notFoundWorld sampleClean (IgnoreLink [sampleIgnoreRule]) sampleDest
        (goStr "https://t.co/fDxPF")).ignoreReason = invalidStatusReason 404 ∧
    (HarvestLink 5 notFoundWorld sampleClean (IgnoreLink [sampleIgnoreRule]) sampleDest
        (goStr "https://t.co/fDxPF")).content = none :=
  harvest_bad_status 5 notFoundWorld sampleClean (IgnoreLink [sampleIgnoreRule])
    sampleDest (goStr "https://t.co/fDxPF") ⟨404, sampleURL, [], .error (goStr "eof")⟩
    rfl (by decide)

/-- C10: when the Content-Type header is absent or empty, `MakeContent`
skips media-type parsing entirely — empty `MediaType`, no
`MediaTypeError`, `IsHTML()` false, no meta parsing — and control goes
straight to the attachment-download decision. -/
theorem makeContent_empty_content_type (u : GoURL) (resp : Resp)
    (destRule : DestinationRule) (fx : ContentFx)
    (h : resp.contentType = []) :
    (MakeContent u resp destRule fx).mediaType = [] ∧
    (MakeContent u resp destRule fx).mediaTypeParams = [] ∧
    (MakeContent u resp destRule fx).mediaTypeError = none ∧
    (MakeContent u resp destRule fx).IsHTML = false ∧
    (MakeContent u resp destRule fx).htmlParsed = false ∧
    (MakeContent u resp destRule fx).htmlParseError = none ∧
    (MakeContent u resp destRule fx).isHTMLRedirect = false ∧
    (MakeContent u resp destRule fx).metaPropertyTags = [] ∧
    (MakeContent u resp destRule fx).attachment =
      (if (destRule.downloadAttachmentsFromDestination u).1 then
        some (if (destRule.downloadAttachmentsFromDestination u).2 = [] then
                downloadTemp u fx
              else download u (destRule.downloadAttachmentsFromDestination u).2 fx)
      else none) := by
  unfold MakeContent
  rw [if_pos h]
  unfold attachStep Content.IsHTML
  dsimp only
  split
  · split <;> exact ⟨rfl, rfl, rfl, rfl, rfl, rfl, rfl, rfl, rfl⟩
  · exact ⟨rfl, rfl, rfl, rfl, rfl, rfl, rfl, rfl, rfl⟩

/-- Witness for C10: a response with no Content-Type header against a
rule that downloads nothing. -/
theorem makeContent_empty_content_type_witness :
    (MakeContent sampleURL sampleResp sampleDest sampleCfx).mediaType = [] ∧
    (MakeContent sampleURL sampleResp sampleDest sampleCfx).mediaTypeParams = [] ∧
    (MakeContent sampleURL sampleResp sampleDest sampleCfx).mediaTypeError = none ∧
    (MakeContent sampleURL sampleResp sampleDest sampleCfx).IsHTML = false ∧
    (MakeContent sampleURL sampleResp sampleDest sampleCfx).htmlParsed = false ∧
    (MakeContent sampleURL sampleResp sampleDest sampleCfx).htmlParseError = none ∧
    (MakeContent sampleURL sampleResp sampleDest sampleCfx).isHTMLRedirect = false ∧
    (MakeContent sampleURL sampleResp sampleDest sampleCfx).metaPropertyTags = [] ∧
    (MakeContent sampleURL sampleResp sampleDest sampleCfx).attachment =
      (if (sampleDest.downloadAttachmentsFromDestination sampleURL).1 then
        some (if (sampleDest.downloadAttachmentsFromDestination sampleURL).2 = [] then
                downloadTemp sampleURL sampleCfx
              else download sampleURL
                (sampleDest.downloadAttachmentsFromDestination sampleURL).2 sampleCfx)
      else none) :=
  makeContent_empty_content_type sampleURL sampleResp sampleDest sampleCfx rfl

/-- C8: when magic-byte sniffing succeeds (no copy, open or sniff
error), the recorded path of the attachment is the original download
path with its `path.Ext` extension replaced by a dot and the detected
type's extension, and the on-disk rename performed is exactly from the
original path to that recorded path. -/
theorem downloadFile_sniff_success (u : GoURL) (p : GoStr) (fx : DownloadFx)
    (h1 : fx.copyErr = none) (h2 : fx.openErr = none) (h3 : fx.ftMatch.2 = none) :
    (downloadFile u p fx).1.destPath =
      p.take (p.length - (pathExt p).length) ++ 46 :: fx.ftMatch.1.extension ∧
    (downloadFile u p fx).2 = some (p, (downloadFile u p fx).1.destPath) ∧
    (downloadFile u p fx).1.downloadError = none ∧
    (downloadFile u p fx).1.fileTypeError = none := by
  unfold downloadFile
  rw [h1, h2]
  dsimp only
  rw [h3]
  exact ⟨rfl, rfl, rfl, rfl⟩

/-- Witness for C8: downloading `dir/f.tmp` and sniffing a PDF renames
to `dir/f.pdf`. -/
theorem downloadFile_sniff_success_witness :
    (downloadFile sampleURL (goStr "dir/f.tmp") sampleDfx).1.destPath =
      (goStr "dir/f.tmp").take
          ((goStr "dir/f.tmp").length - (pathExt (goStr "dir/f.tmp")).length) ++
        46 :: sampleDfx.ftMatch.1.extension ∧
    (downloadFile sampleURL (goStr "dir/f.tmp") sampleDfx).2 =
      some (goStr "dir/f.tmp",
        (downloadFile sampleURL (goStr "dir/f.tmp") sampleDfx).1.destPath) ∧
    (downloadFile sampleURL (goStr "dir/f.tmp") sampleDfx).1.downloadError = none ∧
    (downloadFile sampleURL (goStr "dir/f.tmp") sampleDfx).1.fileTypeError = none :=
  downloadFile_sniff_success sampleURL (goStr "dir/f.tmp") sampleDfx rfl rfl rfl

/-- C5: when the resolved URL matches some regex of the ignore policy's
ordered rule list (first match wins), the record is ignored, its reason
embeds the pattern text of the first matching regex, and no content is
ever classified or downloaded. -/
theorem harvest_ignore_rule_match (fuel : Nat) (w : World)
    (cleanRule : CleanLinkParamsRule) (destRule : DestinationRule)
    (rules : List IgnoreRuleRegex) (orig : GoStr) (resp : Resp)
    (rule : IgnoreRuleRegex)
    (hget : w.httpGet orig = .ok resp) (h200 : resp.statusCode = 200)
    (hfind : rules.find? (fun r => r.test (urlString resp.requestURL)) = some rule) :
    (HarvestLink fuel w cleanRule (IgnoreLink rules) destRule orig).isURLIgnored =
      true ∧
    (HarvestLink fuel w cleanRule (IgnoreLink rules) destRule orig).ignoreReason =
      goStr "Matched Ignore Rule `" ++ rule.pattern ++ goStr "`" ∧
    (∃ pre suf,
      (HarvestLink fuel w cleanRule (IgnoreLink rules) destRule orig).ignoreReason =
        pre ++ rule.pattern ++ suf) ∧
    (HarvestLink fuel w cleanRule (IgnoreLink rules) destRule orig).content = none ∧
    (HarvestLink fuel w cleanRule (IgnoreLink rules) destRule orig).isDestValid =
      true ∧
    (HarvestLink fuel w cleanRule (IgnoreLink rules) destRule orig).resolvedURL =
      some resp.requestURL := by
  have hne : ¬ resp.statusCode ≠ 200 := by simp [h200]
  have hig : IgnoreLink rules resp.requestURL =
      (true, goStr "Matched Ignore Rule `" ++ rule.pattern ++ goStr "`") := by
    unfold IgnoreLink
    rw [hfind]
  rw [HarvestLink_eq, hget]
  dsimp only
  rw [if_neg hne]
  simp only [hig]
  refine ⟨rfl, rfl, ⟨goStr "Matched Ignore Rule `", goStr "`", rfl⟩, rfl, rfl, rfl⟩

/-- Witness for C5: `https://t.co/abc` matches the first (shortener)
ignore rule. -/
theorem harvest_ignore_rule_match_witness :
    (HarvestLink 5 sampleWorld sampleClean (IgnoreLink [sampleIgnoreRule]) sampleDest
        (goStr "https://t.co/abc")).isURLIgnored = true ∧
    (HarvestLink 5 sampleWorld sampleClean (IgnoreLink [sampleIgnoreRule]) sampleDest
        (goStr "https://t.co/abc")).ignoreReason =
      goStr "Matched Ignore Rule `" ++ sampleIgnoreRule.pattern ++ goStr "`" ∧
    (∃ pre suf,
      (HarvestLink 5 sampleWorld sampleClean (IgnoreLink [sampleIgnoreRule]) sampleDest
          (goStr "https://t.co/abc")).ignoreReason =
        pre ++ sampleIgnoreRule.pattern ++ suf) ∧
    (HarvestLink 5 sampleWorld sampleClean (IgnoreLink [sampleIgnoreRule]) sampleDest
        (goStr "https://t.co/abc")).content = none ∧
    (HarvestLink 5 sampleWorld sampleClean (IgnoreLink [sampleIgnoreRule]) sampleDest
        (goStr "https://t.co/abc")).isDestValid = true ∧
    (HarvestLink 5 sampleWorld sampleClean (IgnoreLink [sampleIgnoreRule]) sampleDest
        (goStr "https://t.co/abc")).resolvedURL = some sampleResp.requestURL :=
  harvest_ignore_rule_match 5 sampleWorld sampleClean sampleDest [sampleIgnoreRule]
    (goStr "https://t.co/abc") sampleResp sampleIgnoreRule rfl rfl (by rfl)

/-- The function `cleanLink` only reports `true` together with a URL. -/
theorem cleanLink_fst_some (u : GoURL) (rule : CleanLinkParamsRule)
    (h : (cleanLink u rule).1 = true) : ∃ c, (cleanLink u rule).2 = some c := by
  unfold cleanLink at h ⊢
  by_cases h1 : rule.cleanLinkParams u = false
  · rw [if_pos h1] at h
    simp at h
  · rw [if_neg h1] at h ⊢
    by_cases h2 : List.filter (fun kv => (rule.removeQueryParamFromLinkURL kv.1).1)
        (parseQuery (urlParse (urlString u)).rawQuery) = []
    · rw [if_pos h2] at h
      simp at h
    · rw [if_neg h2]
      exact ⟨_, rfl⟩

/-- Records with no recorded cleaning, no cleaned URL, and the
finalized URL equal to the resolved URL satisfy the C4 invariant. -/
theorem cleanFieldsOK_simple (a : GoStr) (o : Option Link) (v d : Bool) (s : Nat)
    (i : Bool) (g : GoStr) (r : Option GoURL) (c : Option Content) :
    CleanFieldsOK (Link.mk a o v d s i g false r none r c) := by
  constructor
  · simp [Link.cleanedURL, Link.areURLParamsCleaned]
  · simp [Link.finalizedURL, Link.areURLParamsCleaned, Link.resolvedURL]

/-- Setting `OrigLink` does not disturb the C4 invariant. -/
theorem cleanFieldsOK_withOrigLink (l : Link) (o : Option Link) :
    CleanFieldsOK (l.withOrigLink o) ↔ CleanFieldsOK l := by
  cases l
  exact Iff.rfl

/-- The record built after a successful cleaning step satisfies the C4
invariant. -/
theorem cleanFieldsOK_base_true (a : GoStr) (s : Nat) (resolved : GoURL)
    (rc : Bool × Option GoURL) (c : Option Content)
    (h1 : rc.1 = true) (h2 : ∃ u, rc.2 = some u) :
    CleanFieldsOK (Link.mk a none true true s false [] rc.1 (some resolved)
      rc.2 rc.2 c) := by
  obtain ⟨u, hu⟩ := h2
  constructor
  · simp [Link.cleanedURL, Link.areURLParamsCleaned, h1, hu]
  · simp [Link.finalizedURL, Link.areURLParamsCleaned, Link.resolvedURL,
      Link.cleanedURL, h1]

/-- The record built when no cleaning occurred satisfies the C4
invariant. -/
theorem cleanFieldsOK_base_false (a : GoStr) (s : Nat) (resolved : GoURL)
    (b : Bool) (c : Option Content) (h1 : ¬ b = true) :
    CleanFieldsOK (Link.mk a none true true s false [] b (some resolved)
      none (some resolved) c) := by
  rw [Bool.not_eq_true] at h1
  constructor
  · simp [Link.cleanedURL, Link.areURLParamsCleaned, h1]
  · simp [Link.finalizedURL, Link.areURLParamsCleaned, Link.resolvedURL,
      Link.cleanedURL, h1]

/-- C4: every record `HarvestLink` returns has `CleanedURL` present
exactly when `AreURLParamsCleaned` is set, and `FinalizedURL` is the
cleaned URL when cleaning occurred and the resolved URL otherwise. -/
theorem harvest_clean_invariant (fuel : Nat) (w : World)
    (cleanRule : CleanLinkParamsRule) (ignoreRule : GoURL → Bool × GoStr)
    (destRule : DestinationRule) (orig : GoStr) :
    ((HarvestLink fuel w cleanRule ignoreRule destRule orig).cleanedURL ≠ none ↔
      (HarvestLink fuel w cleanRule ignoreRule destRule orig).areURLParamsCleaned =
        true) ∧
    (HarvestLink fuel w cleanRule ignoreRule destRule orig).finalizedURL =
      (if (HarvestLink fuel w cleanRule ignoreRule destRule orig).areURLParamsCleaned
        then (HarvestLink fuel w cleanRule ignoreRule destRule orig).cleanedURL
        else (HarvestLink fuel w cleanRule ignoreRule destRule orig).resolvedURL) := by
  suffices h : CleanFieldsOK (HarvestLink fuel w cleanRule ignoreRule destRule orig) by
    exact h
  induction fuel generalizing orig with
  | zero =>
    rw [HarvestLink_eq]
    rcases hh : w.httpGet orig with e | resp <;> dsimp only
    · exact cleanFieldsOK_simple _ _ _ _ _ _ _ _ _
    · split
      · exact cleanFieldsOK_simple _ _ _ _ _ _ _ _ _
      · split
        · exact cleanFieldsOK_simple _ _ _ _ _ _ _ _ _
        · split
          · rename_i h1
            split
            · split
              · exact cleanFieldsOK_base_true _ _ _ _ _ h1 (cleanLink_fst_some _ _ h1)
              · exact cleanFieldsOK_base_true _ _ _ _ _ h1 (cleanLink_fst_some _ _ h1)
            · exact cleanFieldsOK_base_true _ _ _ _ _ h1 (cleanLink_fst_some _ _ h1)
          · rename_i h1
            split
            · split
              · exact cleanFieldsOK_base_false _ _ _ _ _ h1
              · exact cleanFieldsOK_base_false _ _ _ _ _ h1
            · exact cleanFieldsOK_base_false _ _ _ _ _ h1
  | succ n ih =>
    rw [HarvestLink_eq]
    rcases hh : w.httpGet orig with e | resp <;> dsimp only
    · exact cleanFieldsOK_simple _ _ _ _ _ _ _ _ _
    · split
      · exact cleanFieldsOK_simple _ _ _ _ _ _ _ _ _
      · split
        · exact cleanFieldsOK_simple _ _ _ _ _ _ _ _ _
        · split
          · rename_i h1
            split
            · split
              · rw [cleanFieldsOK_withOrigLink]
                exact ih _
              · exact cleanFieldsOK_base_true _ _ _ _ _ h1 (cleanLink_fst_some _ _ h1)
            · exact cleanFieldsOK_base_true _ _ _ _ _ h1 (cleanLink_fst_some _ _ h1)
          · rename_i h1
            split
            · split
              · rw [cleanFieldsOK_withOrigLink]
                exact ih _
              · exact cleanFieldsOK_base_false _ _ _ _ _ h1
            · exact cleanFieldsOK_base_false _ _ _ _ _ h1

/-- Counterexample to C3 as stated: the content value
`10;url=https://example.com` consists of leading digit(s), a semicolon
and `url=TARGET`, so the spec's description says it matches with target
`https://example.com`; the code's regex `^(\d?)\s?;\s?url=(.*)$` allows
at most one digit and rejects it. -/
theorem metaRefresh_digits_counterexample :
    specMetaRefreshMatch (goStr "10;url=https://example.com") =
      some (goStr "https://example.com") ∧
    metaRefreshContentMatch (goStr "10;url=https://example.com") = none := by
  decide

/-- C3 (amended): a meta-refresh content value matches and captures
target `t` exactly when it consists of at most one optional digit, at
most one optional whitespace character, a semicolon, at most one
optional whitespace character, the literal `url=`, and then the rest of
the string `t` — which must contain no newline, since RE2's `.` does
not match one. -/
theorem metaRefreshContentMatch_iff (s t : GoStr) :
    metaRefreshContentMatch s = some t ↔
      ∃ d w1 w2,
        (d = [] ∨ ∃ b, isDigitB b = true ∧ d = [b]) ∧
        (w1 = [] ∨ ∃ b, isSpaceB b = true ∧ w1 = [b]) ∧
        (w2 = [] ∨ ∃ b, isSpaceB b = true ∧ w2 = [b]) ∧
        (10 : Nat) ∉ t ∧
        s = d ++ w1 ++ 59 :: (w2 ++ goStr "url=" ++ t) := by
  constructor
  · intro h
    unfold metaRefreshContentMatch at h
    dsimp only at h
    obtain ⟨d, hd, hs⟩ := dropOpt_decomp isDigitB s
    obtain ⟨w1, hw1, hs1⟩ := dropOpt_decomp isSpaceB (dropOpt isDigitB s)
    rcases hm : dropOpt isSpaceB (dropOpt isDigitB s) with _ | ⟨c, s3⟩
    · rw [hm] at h
      exact absurd h (by simp)
    · rw [hm] at h
      dsimp only at h
      by_cases hc : c = 59
      · subst hc
        rw [if_pos rfl] at h
        obtain ⟨w2, hw2, hs3⟩ := dropOpt_decomp isSpaceB s3
        by_cases ht4 : (dropOpt isSpaceB s3).take 4 = goStr "url="
        · rw [if_pos ht4] at h
          by_cases h10 : (10 : Nat) ∈ (dropOpt isSpaceB s3).drop 4
          · rw [if_pos h10] at h
            cases h
          · rw [if_neg h10] at h
            have ht : (dropOpt isSpaceB s3).drop 4 = t := Option.some.inj h
            refine ⟨d, w1, w2, hd, hw1, hw2, ?_, ?_⟩
            · rw [← ht]
              exact h10
            · have hs4 : dropOpt isSpaceB s3 = goStr "url=" ++ t := by
                conv_lhs => rw [← List.take_append_drop 4 (dropOpt isSpaceB s3)]
                rw [ht4, ht]
              rw [hs, hs1, hm, hs3, hs4]
              simp [List.append_assoc]
        · rw [if_neg ht4] at h
          cases h
      · rw [if_neg hc] at h
        cases h
  · rintro ⟨d, w1, w2, hd, hw1, hw2, h10, rfl⟩
    have hu4 : goStr "url=" ++ t = 117 :: 114 :: 108 :: 61 :: t := rfl
    have e1 : dropOpt isDigitB (d ++ w1 ++ 59 :: (w2 ++ goStr "url=" ++ t)) =
        w1 ++ 59 :: (w2 ++ goStr "url=" ++ t) := by
      rcases hd with rfl | ⟨b, hb, rfl⟩
      · rcases hw1 with rfl | ⟨b, hb, rfl⟩
        · simp only [List.nil_append]
          exact dropOpt_head_false _ _ _ (by decide)
        · simp only [List.nil_append, List.singleton_append, List.cons_append,
            List.append_assoc]
          exact dropOpt_head_false _ _ _ (space_not_digit b hb)
      · simp only [List.singleton_append, List.cons_append, List.append_assoc]
        rw [dropOpt_head_true _ _ _ hb]
        simp

    have e2 : dropOpt isSpaceB (w1 ++ 59 :: (w2 ++ goStr "url=" ++ t)) =
        59 :: (w2 ++ goStr "url=" ++ t) := by
      rcases hw1 with rfl | ⟨b, hb, rfl⟩
      · simp only [List.nil_append]
        exact dropOpt_head_false _ _ _ (by decide)
      · simp only [List.singleton_append, List.cons_append, List.append_assoc]
        exact dropOpt_head_true _ _ _ hb
    have e3 : dropOpt isSpaceB (w2 ++ goStr "url=" ++ t) = goStr "url=" ++ t := by
      rcases hw2 with rfl | ⟨b, hb, rfl⟩
      · simp only [List.nil_append]
        rw [hu4]
        exact dropOpt_head_false _ _ _ (by decide)
      · simp only [List.singleton_append, List.cons_append, List.append_assoc]
        rw [dropOpt_head_true _ _ _ hb]
        simp
    unfold metaRefreshContentMatch
    dsimp only
    rw [e1, e2]
    dsimp only
    rw [if_pos rfl, e3]
    have ht4 : (goStr "url=" ++ t).take 4 = goStr "url=" := by
      rw [hu4]
      rfl
    rw [if_pos ht4]
    have hd4 : (goStr "url=" ++ t).drop 4 = t := by
      rw [hu4]
      rfl
    rw [hd4, if_neg h10]

/-- Witness for the amended C3 characterization: `2;url=https://x`
matches with target `https://x`. -/
theorem metaRefreshContentMatch_iff_witness :
    metaRefreshContentMatch (goStr "2;url=https://x") = some (goStr "https://x") :=
  (metaRefreshContentMatch_iff (goStr "2;url=https://x") (goStr "https://x")).mpr
    ⟨goStr "2", [], [], Or.inr ⟨50, by decide, rfl⟩, Or.inl rfl, Or.inl rfl,
      by decide, by decide⟩

/-! ### Query round trip: escaping -/

/-- The decoder `hexVal` inverts `hexDigitUpper` on nibbles. -/
theorem hexVal_hexDigitUpper : ∀ n < 16, hexVal (hexDigitUpper n) = some n := by
  decide

/-- The digits of `hexDigitUpper` are never `&`, `;` or `=`. -/
theorem hexDigitUpper_ne (n : Nat) :
    hexDigitUpper n ≠ 38 ∧ hexDigitUpper n ≠ 59 ∧ hexDigitUpper n ≠ 61 := by
  unfold hexDigitUpper
  split <;> omega

/-- Bytes emitted by `escByte` are never `&`, `;` or `=`. -/
theorem escByte_ne (b x : Nat) (hx : x ∈ escByte b) :
    x ≠ 38 ∧ x ≠ 59 ∧ x ≠ 61 := by
  unfold escByte at hx
  split at hx
  · rename_i hb
    simp only [List.mem_singleton] at hx
    subst hx
    unfold isUnreservedB at hb
    rcases hb with ⟨h1, h2⟩ | ⟨h1, h2⟩ | ⟨h1, h2⟩ | rfl | rfl | rfl | rfl <;> omega
  · split at hx
    · simp only [List.mem_singleton] at hx
      omega
    · simp only [List.mem_cons, List.mem_singleton, List.not_mem_nil, or_false] at hx
      rcases hx with rfl | rfl | rfl
      · omega
      · exact hexDigitUpper_ne _
      · exact hexDigitUpper_ne _

/-- Bytes of an escaped string are never `&`, `;` or `=`. -/
theorem queryEscape_ne (s : GoStr) (x : Nat) (hx : x ∈ queryEscape s) :
    x ≠ 38 ∧ x ≠ 59 ∧ x ≠ 61 := by
  unfold queryEscape at hx
  rw [List.mem_flatMap] at hx
  obtain ⟨b, _, hb⟩ := hx
  exact escByte_ne b x hb

/-- Unescaping one escaped byte in front of anything. -/
theorem queryUnescape_escByte (b : Nat) (hb : b < 256) (rest : GoStr) :
    queryUnescape (escByte b ++ rest) =
      (queryUnescape rest).map (fun t => b :: t) := by
  unfold escByte
  split
  · rename_i hu
    have h37 : ¬ b = 37 := by
      intro h
      subst h
      exact absurd hu (by decide)
    have h43 : ¬ b = 43 := by
      intro h
      subst h
      exact absurd hu (by decide)
    rw [List.singleton_append]
    rw [queryUnescape.eq_def]
    dsimp only
    rw [if_neg h37, if_neg h43]
  · split
    · rename_i hu h32
      subst h32
      rw [List.singleton_append]
      rw [queryUnescape.eq_def]
      dsimp only
      rw [if_neg (by decide : ¬ (43 : Nat) = 37), if_pos rfl]
    · rename_i hu h32
      simp only [List.cons_append, List.nil_append]
      rw [queryUnescape.eq_def]
      dsimp only
      rw [if_pos rfl]
      have e1 : hexVal (hexDigitUpper (b / 16)) = some (b / 16) :=
        hexVal_hexDigitUpper _ (by omega)
      have e2 : hexVal (hexDigitUpper (b % 16)) = some (b % 16) :=
        hexVal_hexDigitUpper _ (by omega)
      rw [e1, e2]
      dsimp only
      have hdm : 16 * (b / 16) + b % 16 = b := by omega
      simp only [hdm]

/-- Unescaping inverts escaping: `QueryUnescape` after `QueryEscape`. -/
theorem queryUnescape_queryEscape (s : GoStr) (hs : BytesLT s) :
    queryUnescape (queryEscape s) = some s := by
  induction s with
  | nil => rfl
  | cons b l ih =>
    have hb : b < 256 := hs b (by simp)
    have hl : BytesLT l := fun x hx => hs x (by simp [hx])
    show queryUnescape ((b :: l).flatMap escByte) = some (b :: l)
    rw [List.flatMap_cons]
    rw [queryUnescape_escByte b hb]
    rw [show l.flatMap escByte = queryEscape l from rfl, ih hl]
    rfl

/-! ### Query round trip: segment structure -/

/-- Cutting a string without the separator. -/
theorem goCut_no_sep (s : GoStr) (sep : Nat) (h : sep ∉ s) :
    goCut s sep = (s, []) := by
  induction s with
  | nil => rfl
  | cons c l ih =>
    have hc : ¬ c = sep := by
      intro e
      exact h (by simp [e])
    have ihl := ih (fun hx => h (List.mem_cons_of_mem _ hx))
    simp [goCut, hc, ihl]

/-- Cutting at the first separator occurrence. -/
theorem goCut_append (a b : GoStr) (sep : Nat) (h : sep ∉ a) :
    goCut (a ++ sep :: b) sep = (a, b) := by
  induction a with
  | nil => simp [goCut]
  | cons c l ih =>
    have hc : ¬ c = sep := by
      intro e
      exact h (by simp [e])
    have ihl := ih (fun hx => h (List.mem_cons_of_mem _ hx))
    simp [goCut, hc, ihl]

/-- A `ParseQuery` iteration on an escaped `k=v` segment records the
pair. -/
theorem parseSeg_pair (m : Values) (k v : GoStr) (hk : BytesLT k) (hv : BytesLT v) :
    parseSeg m (queryEscape k ++ 61 :: queryEscape v) = addValue m k v := by
  have h59 : (59 : Nat) ∉ queryEscape k ++ 61 :: queryEscape v := by
    intro hx
    rcases List.mem_append.mp hx with hx | hx
    · exact (queryEscape_ne _ _ hx).2.1 rfl
    · rcases List.mem_cons.mp hx with h61 | hx
      · exact absurd h61 (by decide)
      · exact (queryEscape_ne _ _ hx).2.1 rfl
  have hne : ¬ (queryEscape k ++ 61 :: queryEscape v) = [] := by simp
  have hcut : goCut (queryEscape k ++ 61 :: queryEscape v) 61 =
      (queryEscape k, queryEscape v) :=
    goCut_append _ _ _ (fun hx => (queryEscape_ne _ _ hx).2.2 rfl)
  unfold parseSeg
  rw [if_neg h59, if_neg hne]
  dsimp only
  rw [hcut]
  dsimp only
  rw [queryUnescape_queryEscape k hk, queryUnescape_queryEscape v hv]

/-- Folding `ParseQuery` iterations over escaped segments records the
pairs in order. -/
theorem foldl_parseSeg_pairs (pairs : List (GoStr × GoStr)) :
    ∀ m, (∀ kv ∈ pairs, BytesLT kv.1 ∧ BytesLT kv.2) →
    (pairs.map (fun kv => queryEscape kv.1 ++ 61 :: queryEscape kv.2)).foldl
        parseSeg m =
      pairs.foldl (fun acc kv => addValue acc kv.1 kv.2) m := by
  induction pairs with
  | nil =>
    intro m _
    rfl
  | cons kv rest ih =>
    intro m hB
    simp only [List.map_cons, List.foldl_cons]
    rw [parseSeg_pair m kv.1 kv.2 (hB kv (by simp)).1 (hB kv (by simp)).2]
    exact ih _ (fun x hx => hB x (by simp [hx]))

/-- Parsing an `Encode` output records exactly the
flattened (sorted) pairs in order. -/
theorem parseQuery_encodeValues (m : Values)
    (hB : ∀ kv ∈ flatPairsV (sortByKey m), BytesLT kv.1 ∧ BytesLT kv.2) :
    parseQuery (encodeValues m) =
      (flatPairsV (sortByKey m)).foldl (fun acc kv => addValue acc kv.1 kv.2) [] := by
  unfold encodeValues parseQuery
  by_cases hfp : flatPairsV (sortByKey m) = []
  · rw [hfp]
    rfl
  · have hsegs : ∀ seg ∈ (flatPairsV (sortByKey m)).map
        (fun kv => queryEscape kv.1 ++ 61 :: queryEscape kv.2), (38 : Nat) ∉ seg := by
      intro seg hseg hx
      rw [List.mem_map] at hseg
      obtain ⟨kv, _, rfl⟩ := hseg
      rcases List.mem_append.mp hx with hx | hx
      · exact (queryEscape_ne _ _ hx).1 rfl
      · rcases List.mem_cons.mp hx with h61 | hx
        · exact absurd h61 (by decide)
        · exact (queryEscape_ne _ _ hx).1 rfl
    have hmapne : (flatPairsV (sortByKey m)).map
        (fun kv => queryEscape kv.1 ++ 61 :: queryEscape kv.2) ≠ [] := by
      simpa using hfp
    rw [List.splitOn_intercalate _ 38 hsegs hmapne]
    exact foldl_parseSeg_pairs _ _ hB

/-! ### Query round trip: lookup bookkeeping -/

/-- Unfolding `valsOf` over a cons. -/
theorem valsOf_cons (k : GoStr) (p : GoStr × GoStr) (l : List (GoStr × GoStr)) :
    valsOf k (p :: l) = if p.1 = k then p.2 :: valsOf k l else valsOf k l := by
  by_cases hp : p.1 = k <;> simp [valsOf, hp]

/-- Lookup after a single map append. -/
theorem lookupV_addValue (m : Values) (k0 v k : GoStr) :
    lookupV (addValue m k0 v) k =
      if k = k0 then some ((lookupV m k0).getD [] ++ [v]) else lookupV m k := by
  induction m with
  | nil =>
    by_cases hk : k = k0
    · simp [addValue, lookupV, hk]
    · have hk' : ¬ k0 = k := fun h => hk h.symm
      simp [addValue, lookupV, hk, hk']
  | cons hd rest ih =>
    obtain ⟨k', vs⟩ := hd
    by_cases h1 : k' = k0
    · by_cases hk : k = k'
      · simp [addValue, lookupV, h1, hk]
      · have hk2 : ¬ k = k0 := by
          rw [← h1]
          exact hk
        have hk2' : ¬ k0 = k := fun h => hk2 h.symm
        have hk' : ¬ k' = k := fun h => hk h.symm
        simp [addValue, lookupV, h1, hk, hk', hk2, hk2']
    · by_cases hk2 : k' = k
      · have hk0 : ¬ k = k0 := by
          rw [← hk2]
          exact fun h => h1 h
        simp [addValue, lookupV, h1, hk2, hk0]
      · simp only [addValue, if_neg h1]
        simp only [lookupV, if_neg hk2]
        rw [ih]
        by_cases hk : k = k0
        · rw [if_pos hk, if_pos hk, if_neg h1]
        · rw [if_neg hk, if_neg hk]

/-- Values recorded under a key distribute over list append. -/
theorem valsOf_append (k : GoStr) (a b : List (GoStr × GoStr)) :
    valsOf k (a ++ b) = valsOf k a ++ valsOf k b := by
  simp [valsOf]

/-- Values recorded under a key in a constant-key block. -/
theorem valsOf_map_const (k0 k : GoStr) (vs : List GoStr) :
    valsOf k (vs.map (fun v => (k0, v))) = if k0 = k then vs else [] := by
  induction vs with
  | nil => by_cases h : k0 = k <;> simp [valsOf, h]
  | cons v t ih =>
    rw [List.map_cons, valsOf_cons]
    by_cases h : k0 = k
    · subst h
      simp [ih]
    · simp [ih, h]

/-- Unfolding `flatPairsV` over a cons. -/
theorem flatPairsV_cons (k0 : GoStr) (vs : List GoStr) (rest : Values) :
    flatPairsV ((k0, vs) :: rest) =
      vs.map (fun v => (k0, v)) ++ flatPairsV rest := by
  simp [flatPairsV]

/-- Lookup through a fold of map appends. -/
theorem lookupV_foldl_add (pairs : List (GoStr × GoStr)) :
    ∀ (m : Values) (k : GoStr),
      lookupV (pairs.foldl (fun acc kv => addValue acc kv.1 kv.2) m) k =
        match lookupV m k with
        | some vs => some (vs ++ valsOf k pairs)
        | none => if valsOf k pairs = [] then none else some (valsOf k pairs) := by
  induction pairs with
  | nil =>
    intro m k
    cases hm : lookupV m k <;> simp [valsOf, hm]
  | cons kv rest ih =>
    intro m k
    simp only [List.foldl_cons]
    rw [ih, lookupV_addValue, valsOf_cons]
    by_cases hk : k = kv.1
    · have hk' : kv.1 = k := hk.symm
      rw [if_pos hk, if_pos hk', ← hk]
      cases hm : lookupV m k with
      | none => simp
      | some vs => simp [List.append_assoc]
    · have hk' : ¬ kv.1 = k := fun h => hk h.symm
      rw [if_neg hk, if_neg hk']

/-- Lookup fails exactly off the key set. -/
theorem lookupV_none_iff (m : Values) (k : GoStr) :
    lookupV m k = none ↔ k ∉ keysOf m := by
  induction m with
  | nil => simp [lookupV, keysOf]
  | cons hd rest ih =>
    obtain ⟨k', vs⟩ := hd
    by_cases h : k' = k
    · simp [lookupV, keysOf, h]
    · have h' : ¬ k = k' := fun e => h e.symm
      simp [lookupV, keysOf, h, h', ih]

/-- Under unique keys, membership and lookup agree. -/
theorem lookupV_mem (m : Values) (hnd : (keysOf m).Nodup) (k : GoStr)
    (vs : List GoStr) : (k, vs) ∈ m ↔ lookupV m k = some vs := by
  induction m with
  | nil => simp [lookupV]
  | cons hd rest ih =>
    obtain ⟨k', vs'⟩ := hd
    have hnd' : k' ∉ keysOf rest ∧ (keysOf rest).Nodup := by
      simpa [keysOf] using hnd
    by_cases h : k' = k
    · subst h
      simp only [lookupV, if_pos rfl]
      constructor
      · intro hm
        rcases List.mem_cons.mp hm with he | ht
        · cases he
          rfl
        · exact absurd (List.mem_map_of_mem Prod.fst ht) hnd'.1
      · intro he
        cases he
        exact List.mem_cons_self _ _
    · simp only [lookupV, if_neg h]
      rw [List.mem_cons]
      constructor
      · rintro (he | ht)
        · injection he with e1 e2
          exact absurd e1.symm h
        · exact (ih hnd'.2).mp ht
      · intro hl
        exact Or.inr ((ih hnd'.2).mpr hl)

/-- Under unique keys, lookup is stable under permutation. -/
theorem lookupV_perm (m m' : Values) (hp : m.Perm m')
    (hnd : (keysOf m).Nodup) (k : GoStr) : lookupV m k = lookupV m' k := by
  have hnd' : (keysOf m').Nodup := ((hp.map Prod.fst).nodup_iff).mp hnd
  cases hm : lookupV m k with
  | none =>
    have hk : k ∉ keysOf m := (lookupV_none_iff m k).mp hm
    have hk' : k ∉ keysOf m' := fun hx =>
      hk (((hp.map Prod.fst).mem_iff).mpr hx)
    exact ((lookupV_none_iff m' k).mpr hk').symm
  | some vs =>
    have hmem : (k, vs) ∈ m := (lookupV_mem m hnd k vs).mpr hm
    exact ((lookupV_mem m' hnd' k vs).mp (hp.mem_iff.mp hmem)).symm

/-- Keys absent from an association list record no values in its
flattening. -/
theorem valsOf_flat_not_mem (k : GoStr) (l : Values) (h : k ∉ keysOf l) :
    valsOf k (flatPairsV l) = [] := by
  induction l with
  | nil => simp [valsOf, flatPairsV]
  | cons hd rest ih =>
    obtain ⟨k0, vs⟩ := hd
    have hk0 : ¬ k0 = k := by
      intro e
      exact h (by simp [keysOf, e])
    have hr : k ∉ keysOf rest := fun hx => h (by simp [keysOf] at hx ⊢; exact Or.inr hx)
    rw [flatPairsV_cons, valsOf_append, valsOf_map_const, if_neg hk0, ih hr]
    rfl

/-- Under unique keys, flattening records exactly the stored list for
each key. -/
theorem valsOf_flatPairs (l : Values) (hnd : (keysOf l).Nodup) (k : GoStr) :
    valsOf k (flatPairsV l) = (lookupV l k).getD [] := by
  induction l with
  | nil => simp [valsOf, flatPairsV, lookupV]
  | cons hd rest ih =>
    obtain ⟨k0, vs⟩ := hd
    have hnd' : k0 ∉ keysOf rest ∧ (keysOf rest).Nodup := by
      simpa [keysOf] using hnd
    rw [flatPairsV_cons, valsOf_append, valsOf_map_const]
    by_cases h : k0 = k
    · rw [if_pos h, ← h, valsOf_flat_not_mem k0 rest hnd'.1]
      simp [lookupV, h]
    · rw [if_neg h, ih hnd'.2]
      simp [lookupV, h]

/-! ### Query round trip: well-formedness plumbing -/

/-- Decoded hex nibbles are nibbles. -/
theorem hexVal_lt (b x : Nat) (h : hexVal b = some x) : x < 16 := by
  unfold hexVal at h
  split at h
  · injection h with h'
    omega
  · split at h
    · injection h with h'
      omega
    · split at h
      · injection h with h'
        omega
      · cases h

/-- Unescaping keeps bytes in range. -/
theorem queryUnescape_bytes (s t : GoStr) (h : queryUnescape s = some t)
    (hs : BytesLT s) : BytesLT t := by
  have main : ∀ (n : Nat) (s t : GoStr), s.length ≤ n →
      queryUnescape s = some t → BytesLT s → BytesLT t := by
    intro n
    induction n with
    | zero =>
      intro s t hl h hs
      rcases s with _ | ⟨c, rest⟩
      · injection h with h'
        subst h'
        intro b hb
        cases hb
      · simp at hl
    | succ n ih =>
      intro s t hl h hs
      rcases s with _ | ⟨c, rest⟩
      · injection h with h'
        subst h'
        intro b hb
        cases hb
      · rw [queryUnescape.eq_def] at h
        dsimp only at h
        by_cases hc : c = 37
        · rw [if_pos hc] at h
          rcases rest with _ | ⟨a, rest1⟩
          · dsimp only at h
            cases h
          rcases rest1 with _ | ⟨b2, rest2⟩
          · dsimp only at h
            cases h
          dsimp only at h
          rcases hxa : hexVal a with _ | x <;> rw [hxa] at h
          · dsimp only at h
            cases h
          rcases hxb : hexVal b2 with _ | y <;> rw [hxb] at h
          · dsimp only at h
            cases h
          dsimp only at h
          rcases hq : queryUnescape rest2 with _ | t2 <;> rw [hq] at h
          · simp at h
          simp only [Option.map_some'] at h
          injection h with h'
          subst h'
          have hrec : BytesLT t2 := by
            refine ih rest2 t2 ?_ hq ?_
            · simp at hl
              omega
            · intro b hb
              exact hs b (by simp [hb])
          intro b hb
          rcases List.mem_cons.mp hb with rfl | hb'
          · have hx16 : x < 16 := hexVal_lt a x hxa
            have hy16 : y < 16 := hexVal_lt b2 y hxb
            omega
          · exact hrec b hb'
        · rw [if_neg hc] at h
          by_cases hc2 : c = 43
          · rw [if_pos hc2] at h
            rcases hq : queryUnescape rest with _ | t2 <;> rw [hq] at h
            · simp at h
            simp only [Option.map_some'] at h
            injection h with h'
            subst h'
            have hrec : BytesLT t2 := by
              refine ih rest t2 ?_ hq ?_
              · simp at hl
                omega
              · intro b hb
                exact hs b (by simp [hb])
            intro b hb
            rcases List.mem_cons.mp hb with rfl | hb'
            · omega
            · exact hrec b hb'
          · rw [if_neg hc2] at h
            rcases hq : queryUnescape rest with _ | t2 <;> rw [hq] at h
            · simp at h
            simp only [Option.map_some'] at h
            injection h with h'
            subst h'
            have hrec : BytesLT t2 := by
              refine ih rest t2 ?_ hq ?_
              · simp at hl
                omega
              · intro b hb
                exact hs b (by simp [hb])
            intro b hb
            rcases List.mem_cons.mp hb with rfl | hb'
            · exact hs b (by simp)
            · exact hrec b hb'
  exact main s.length s t (le_refl _) h hs

/-- Bytes of the left half of a cut come from the input. -/
theorem goCut_mem_left (s : GoStr) (sep b : Nat) (h : b ∈ (goCut s sep).1) :
    b ∈ s := by
  induction s with
  | nil => simp [goCut] at h
  | cons c l ih =>
    by_cases hc : c = sep
    · simp [goCut, hc] at h
    · simp only [goCut, if_neg hc] at h
      rcases List.mem_cons.mp h with rfl | h'
      · simp
      · simp [ih h']

/-- Bytes of the right half of a cut come from the input. -/
theorem goCut_mem_right (s : GoStr) (sep b : Nat) (h : b ∈ (goCut s sep).2) :
    b ∈ s := by
  induction s with
  | nil => simp [goCut] at h
  | cons c l ih =>
    by_cases hc : c = sep
    · simp only [goCut, if_pos hc] at h
      simp [h]
    · simp only [goCut, if_neg hc] at h
      simp [ih h]

/-- Bytes of a `splitOn` segment come from the input. -/
theorem mem_of_mem_splitOn (s : GoStr) (seg : GoStr) (b : Nat)
    (hseg : seg ∈ s.splitOn 38) (hb : b ∈ seg) : b ∈ s := by
  induction s generalizing seg with
  | nil =>
    have hn : ([] : GoStr).splitOn 38 = [[]] := rfl
    rw [hn] at hseg
    simp at hseg
    subst hseg
    simp at hb
  | cons c l ih =>
    have hc : (c :: l).splitOn 38 =
        if c = 38 then [] :: l.splitOn 38
        else (l.splitOn 38).modifyHead (List.cons c) := by
      simp [List.splitOn, List.splitOnP_cons]
    rw [hc] at hseg
    by_cases hceq : c = 38
    · rw [if_pos hceq] at hseg
      rcases List.mem_cons.mp hseg with rfl | hseg'
      · simp at hb
      · exact List.mem_cons_of_mem _ (ih _ hseg' hb)
    · rw [if_neg hceq] at hseg
      rcases hsp : l.splitOn 38 with _ | ⟨h0, t0⟩
      · exact absurd hsp (List.splitOnP_ne_nil _ _)
      · rw [hsp] at hseg
        simp only [List.modifyHead] at hseg
        rcases List.mem_cons.mp hseg with rfl | hseg'
        · rcases List.mem_cons.mp hb with rfl | hb'
          · simp
          · refine List.mem_cons_of_mem _ (ih h0 ?_ hb')
            rw [hsp]
            exact List.mem_cons_self _ _
        · refine List.mem_cons_of_mem _ (ih seg ?_ hb)
          rw [hsp]
          exact List.mem_cons_of_mem _ hseg'

/-- A map insert either leaves the key set alone or appends the key. -/
theorem keysOf_addValue (m : Values) (k v : GoStr) :
    keysOf (addValue m k v) =
      if k ∈ keysOf m then keysOf m else keysOf m ++ [k] := by
  induction m with
  | nil => simp [addValue, keysOf]
  | cons hd rest ih =>
    obtain ⟨k', vs⟩ := hd
    by_cases h : k' = k
    · simp [addValue, keysOf, h]
    · have h2 : ¬ k = k' := fun e => h e.symm
      have ih' : List.map Prod.fst (addValue rest k v) =
          if k ∈ List.map Prod.fst rest then List.map Prod.fst rest
          else List.map Prod.fst rest ++ [k] := ih
      by_cases hm : k ∈ List.map Prod.fst rest
      · simp [addValue, keysOf, h, h2, hm, ih']
      · simp [addValue, keysOf, h, h2, hm, ih']

/-- Every entry of a map insert is the fresh singleton entry, an
updated entry, or an untouched entry. -/
theorem addValue_forall (P : GoStr × List GoStr → Prop) (m : Values)
    (k v : GoStr) (hm : ∀ kv ∈ m, P kv) (hnew : P (k, [v]))
    (hupd : ∀ k' vs, P (k', vs) → P (k', vs ++ [v])) :
    ∀ kv ∈ addValue m k v, P kv := by
  induction m with
  | nil =>
    intro kv hkv
    simp [addValue] at hkv
    rw [hkv]
    exact hnew
  | cons hd rest ih =>
    intro kv hkv
    obtain ⟨k', vs⟩ := hd
    by_cases h : k' = k
    · simp only [addValue, if_pos h, List.mem_cons] at hkv
      rcases hkv with rfl | hkv
      · exact hupd k' vs (hm (k', vs) (by simp))
      · exact hm kv (by simp [hkv])
    · simp only [addValue, if_neg h, List.mem_cons] at hkv
      rcases hkv with rfl | hkv
      · exact hm (k', vs) (by simp)
      · exact ih (fun x hx => hm x (by simp [hx])) kv hkv

/-- The empty map is well-formed. -/
theorem valuesWF_nil : ValuesWF ([] : Values) := by
  refine ⟨List.nodup_nil, ?_, ?_⟩ <;> intro kv hkv <;> cases hkv

/-- A map insert preserves well-formedness when the inserted bytes are
in range. -/
theorem valuesWF_addValue (m : Values) (k v : GoStr) (h : ValuesWF m)
    (hk : BytesLT k) (hv : BytesLT v) : ValuesWF (addValue m k v) := by
  refine ⟨?_, ?_, ?_⟩
  · rw [keysOf_addValue]
    split
    · exact h.1
    · rename_i hnm
      rw [List.nodup_append]
      refine ⟨h.1, List.nodup_singleton k, ?_⟩
      intro x hx hx2
      rw [List.mem_singleton] at hx2
      subst hx2
      exact hnm hx
  · refine addValue_forall _ m k v h.2.1 (by simp) ?_
    intro k' vs _
    simp
  · refine addValue_forall _ m k v h.2.2 ⟨hk, by simpa using hv⟩ ?_
    intro k' vs hP
    refine ⟨hP.1, ?_⟩
    intro x hx
    rcases List.mem_append.mp hx with hx' | hx'
    · exact hP.2 x hx'
    · rw [List.mem_singleton] at hx'
      subst hx'
      exact hv

/-- One `ParseQuery` iteration preserves map well-formedness. -/
theorem valuesWF_parseSeg (m : Values) (seg : GoStr) (h : ValuesWF m)
    (hseg : BytesLT seg) : ValuesWF (parseSeg m seg) := by
  unfold parseSeg
  split
  · exact h
  split
  · exact h
  dsimp only
  rcases hk : queryUnescape (goCut seg 61).1 with _ | k <;>
    rcases hv : queryUnescape (goCut seg 61).2 with _ | v
  · exact h
  · exact h
  · exact h
  refine valuesWF_addValue m k v h ?_ ?_
  · exact queryUnescape_bytes _ _ hk (fun b hb => hseg b (goCut_mem_left _ _ _ hb))
  · exact queryUnescape_bytes _ _ hv (fun b hb => hseg b (goCut_mem_right _ _ _ hb))

/-- The `ParseQuery` output is a well-formed map when the raw query's bytes
are in range. -/
theorem valuesWF_parseQuery (s : GoStr) (hs : BytesLT s) :
    ValuesWF (parseQuery s) := by
  have hfold : ∀ (segs : List GoStr) (m : Values), ValuesWF m →
      (∀ seg ∈ segs, BytesLT seg) → ValuesWF (segs.foldl parseSeg m) := by
    intro segs
    induction segs with
    | nil =>
      intro m hm _
      exact hm
    | cons a t ih =>
      intro m hm hB
      exact ih _ (valuesWF_parseSeg m a hm (hB a (by simp)))
        (fun seg hs' => hB seg (by simp [hs']))
  exact hfold _ _ valuesWF_nil
    (fun seg hseg b hb => hs b (mem_of_mem_splitOn s seg b hseg hb))

/-- Filtering entries preserves map well-formedness. -/
theorem valuesWF_filter (m : Values) (p : GoStr × List GoStr → Bool)
    (h : ValuesWF m) : ValuesWF (m.filter p) := by
  refine ⟨?_, ?_, ?_⟩
  · exact List.Nodup.sublist (List.Sublist.map Prod.fst (List.filter_sublist m)) h.1
  · intro kv hkv
    exact h.2.1 kv (List.mem_of_mem_filter hkv)
  · intro kv hkv
    exact h.2.2 kv (List.mem_of_mem_filter hkv)

/-- Lookup in a key-filtered map. -/
theorem lookupV_filter_key (m : Values) (p : GoStr → Bool) (k : GoStr) :
    lookupV (m.filter (fun kv => p kv.1)) k =
      if p k then lookupV m k else none := by
  induction m with
  | nil => by_cases h : p k <;> simp [lookupV, h]
  | cons hd rest ih =>
    obtain ⟨k', vs⟩ := hd
    by_cases hp : p k'
    · by_cases hk : k' = k
      · subst hk
        simp [List.filter_cons, lookupV, hp]
      · simp [List.filter_cons, lookupV, hp, hk, ih]
    · by_cases hk : k' = k
      · subst hk
        simp [List.filter_cons, lookupV, hp, ih]
      · simp [List.filter_cons, lookupV, hp, hk, ih]

/-- Flattened pairs come from entries. -/
theorem mem_flatPairsV (l : Values) (kv : GoStr × GoStr)
    (h : kv ∈ flatPairsV l) : ∃ e ∈ l, kv.1 = e.1 ∧ kv.2 ∈ e.2 := by
  unfold flatPairsV at h
  rw [List.mem_flatMap] at h
  obtain ⟨e, he, hm⟩ := h
  rw [List.mem_map] at hm
  obtain ⟨v, hvm, heq⟩ := hm
  refine ⟨e, he, ?_, ?_⟩
  · rw [← heq]
  · rw [← heq]
    exact hvm

/-! ### Query round trip: assembly -/

/-- Parsing inverts serialization on well-formed URLs (the copy
`url.Parse(url.String())` taken by `cleanLink` is the URL itself). -/
theorem urlParse_urlString (u : GoURL) (h : wfURL u) :
    urlParse (urlString u) = u := by
  obtain ⟨pre, rq, fg⟩ := u
  obtain ⟨hpre, hq⟩ := h
  have h35pre : (35 : Nat) ∉ pre := fun hx => (hpre 35 hx).2 rfl
  have h63pre : (63 : Nat) ∉ pre := fun hx => (hpre 63 hx).1 rfl
  have h35q : (35 : Nat) ∉ rq := fun hx => (hq 35 hx).2 rfl
  have hA35 : (35 : Nat) ∉ pre ++ (if rq = [] then [] else 63 :: rq) := by
    intro hx
    rcases List.mem_append.mp hx with hx | hx
    · exact h35pre hx
    · split at hx
      · cases hx
      · rcases List.mem_cons.mp hx with he | hx
        · cases he
        · exact h35q hx
  have hcut1 : goCut (pre ++ (if rq = [] then [] else 63 :: rq) ++
      (if fg = [] then [] else 35 :: fg)) 35 =
      (pre ++ (if rq = [] then [] else 63 :: rq), fg) := by
    by_cases hfg : fg = []
    · rw [if_pos hfg, List.append_nil, hfg]
      exact goCut_no_sep _ _ hA35
    · rw [if_neg hfg]
      exact goCut_append _ _ _ hA35
  have hcut2 : goCut (pre ++ (if rq = [] then [] else 63 :: rq)) 63 =
      (pre, rq) := by
    by_cases hrq : rq = []
    · rw [if_pos hrq, List.append_nil, hrq]
      exact goCut_no_sep _ _ h63pre
    · rw [if_neg hrq]
      exact goCut_append _ _ _ h63pre
  unfold urlString urlParse
  dsimp only
  rw [hcut1]
  dsimp only
  rw [hcut2]

/-- The master round trip: parsing an encoded map looks up like the
map, for any well-formed map. -/
theorem lookupV_parseQuery_encode (m : Values) (hWF : ValuesWF m)
    (k : GoStr) : lookupV (parseQuery (encodeValues m)) k = lookupV m k := by
  have hperm : (sortByKey m).Perm m := List.perm_insertionSort _ m
  have hndS : (keysOf (sortByKey m)).Nodup :=
    ((hperm.map Prod.fst).nodup_iff).mpr hWF.1
  have hB : ∀ kv ∈ flatPairsV (sortByKey m), BytesLT kv.1 ∧ BytesLT kv.2 := by
    intro kv hkv
    obtain ⟨e, he, h1, h2⟩ := mem_flatPairsV _ _ hkv
    have he' : e ∈ m := hperm.mem_iff.mp he
    have hbytes := hWF.2.2 e he'
    constructor
    · rw [h1]
      exact hbytes.1
    · exact hbytes.2 kv.2 h2
  rw [parseQuery_encodeValues m hB, lookupV_foldl_add]
  show (if valsOf k (flatPairsV (sortByKey m)) = [] then none
    else some (valsOf k (flatPairsV (sortByKey m)))) = lookupV m k
  rw [valsOf_flatPairs _ hndS k, lookupV_perm _ _ hperm hndS k]
  cases hm : lookupV m k with
  | none => simp
  | some vs =>
    have hvs : vs ≠ [] := hWF.2.1 (k, vs) ((lookupV_mem m hWF.1 k vs).mpr hm)
    simp [hvs]

/-- C6: when at least one query parameter matches the removal policy
(and the per-URL gate admits the URL), `cleanLink` returns a cleaned
URL, and re-parsing its query string yields exactly the original
parameter set with the matching entries removed — every surviving
parameter's value list is byte-identical to the original. -/
theorem cleanLink_roundtrip (u : GoURL) (rule : CleanLinkParamsRule)
    (hwf : wfURL u) (hgate : rule.cleanLinkParams u = true)
    (hmatch : ∃ kv ∈ parseQuery u.rawQuery,
      (rule.removeQueryParamFromLinkURL kv.1).1 = true) :
    ∃ c, cleanLink u rule = (true, some c) ∧
      ∀ k, lookupV (parseQuery c.rawQuery) k =
        if (rule.removeQueryParamFromLinkURL k).1 = true then none
        else lookupV (parseQuery u.rawQuery) k := by
  have hcopy : urlParse (urlString u) = u := urlParse_urlString u hwf
  have hWFq : ValuesWF (parseQuery u.rawQuery) :=
    valuesWF_parseQuery _ (fun b hb => (hwf.2 b hb).1)
  unfold cleanLink
  rw [if_neg (by simp [hgate])]
  dsimp only
  rw [hcopy]
  have hne : ¬ (parseQuery u.rawQuery).filter
      (fun kv => (rule.removeQueryParamFromLinkURL kv.1).1) = [] := by
    obtain ⟨kv, hkv, hr⟩ := hmatch
    intro he
    have hmem : kv ∈ (parseQuery u.rawQuery).filter
        (fun kv => (rule.removeQueryParamFromLinkURL kv.1).1) :=
      List.mem_filter.mpr ⟨hkv, hr⟩
    rw [he] at hmem
    cases hmem
  rw [if_neg hne]
  refine ⟨_, rfl, ?_⟩
  intro k
  have hWFr : ValuesWF ((parseQuery u.rawQuery).filter
      (fun kv => !(rule.removeQueryParamFromLinkURL kv.1).1)) :=
    valuesWF_filter _ _ hWFq
  show lookupV (parseQuery (encodeValues _)) k = _
  rw [lookupV_parseQuery_encode _ hWFr k]
  rw [lookupV_filter_key (parseQuery u.rawQuery)
    (fun x => !(rule.removeQueryParamFromLinkURL x).1) k]
  cases hrk : (rule.removeQueryParamFromLinkURL k).1 <;> simp [hrk]

/-- C7: when no query parameter matches the removal policy, `cleanLink`
reports no change and returns no URL object. -/
theorem cleanLink_no_matching_params (u : GoURL) (rule : CleanLinkParamsRule)
    (hwf : wfURL u)
    (hnone : ∀ kv ∈ parseQuery u.rawQuery,
      (rule.removeQueryParamFromLinkURL kv.1).1 = false) :
    cleanLink u rule = (false, none) := by
  unfold cleanLink
  by_cases hgate : rule.cleanLinkParams u = false
  · rw [if_pos hgate]
  · rw [if_neg hgate]
    dsimp only
    rw [urlParse_urlString u hwf]
    have hempty : (parseQuery u.rawQuery).filter
        (fun kv => (rule.removeQueryParamFromLinkURL kv.1).1) = [] := by
      rw [List.filter_eq_nil_iff]
      intro kv hkv
      simp [hnone kv hkv]
    rw [if_pos hempty]

/-- Witness for C6: cleaning `https://example.com/p?utm_source=x&b=2`
against the `^utm_` policy. -/
theorem cleanLink_roundtrip_witness :
    ∃ c, cleanLink sampleCleanURL sampleClean = (true, some c) ∧
      ∀ k, lookupV (parseQuery c.rawQuery) k =
        if (sampleClean.removeQueryParamFromLinkURL k).1 = true then none
        else lookupV (parseQuery sampleCleanURL.rawQuery) k :=
  cleanLink_roundtrip sampleCleanURL sampleClean (by decide) rfl (by decide)

/-- Witness for C7: a query with no `utm_` parameter is left alone. -/
theorem cleanLink_no_matching_params_witness :
    cleanLink sampleNoCleanURL sampleClean = (false, none) :=
  cleanLink_no_matching_params sampleNoCleanURL sampleClean (by decide) (by decide)

/-- C9: `cleanLink` never mutates the caller's URL object.  In the
heap-explicit rendering every cell that existed before the call —
including the caller's URL, hence the record's `ResolvedURL` — is
unchanged afterwards; the cleaned URL, when returned, lives in a
freshly allocated cell distinct from the caller's; and the call
computes exactly what the pure `cleanLink` computes on the caller's
URL value. -/
theorem cleanLinkHeap_no_mutation (st : List GoURL) (p : Nat)
    (rule : CleanLinkParamsRule) (hp : p < st.length) :
    (∀ i, i < st.length →
      (cleanLinkHeap st p rule).1.getD i ⟨[], [], []⟩ = st.getD i ⟨[], [], []⟩) ∧
    (∀ q, (cleanLinkHeap st p rule).2.2 = some q →
      q ≠ p ∧ q < (cleanLinkHeap st p rule).1.length) ∧
    ((cleanLinkHeap st p rule).2.1,
      ((cleanLinkHeap st p rule).2.2).map
        (fun q => (cleanLinkHeap st p rule).1.getD q ⟨[], [], []⟩)) =
      cleanLink (st.getD p ⟨[], [], []⟩) rule := by
  unfold cleanLinkHeap cleanLink
  dsimp only
  by_cases hgate : rule.cleanLinkParams (st.getD p ⟨[], [], []⟩) = false
  · rw [if_pos hgate, if_pos hgate]
    refine ⟨fun i _ => rfl, ?_, rfl⟩
    intro q hq
    exact absurd hq (by simp)
  · rw [if_neg hgate, if_neg hgate]
    by_cases hcp : List.filter (fun kv => (rule.removeQueryParamFromLinkURL kv.1).1)
        (parseQuery (urlParse (urlString (st.getD p ⟨[], [], []⟩))).rawQuery) = []
    · rw [if_pos hcp, if_pos hcp]
      refine ⟨?_, ?_, rfl⟩
      · intro i hi
        simp only [List.getD_eq_getElem?_getD, List.getElem?_append_left hi]
      · intro q hq
        exact absurd hq (by simp)
    · rw [if_neg hcp, if_neg hcp]
      refine ⟨?_, ?_, ?_⟩
      · intro i hi
        have hne : st.length ≠ i := by omega
        simp only [List.getD_eq_getElem?_getD, List.getElem?_set_ne hne,
          List.getElem?_append_left hi]
      · intro q hq
        have hq' : st.length = q := by
          simpa using hq
        subst hq'
        refine ⟨by omega, ?_⟩
        rw [List.length_set, List.length_append]
        simp
      · dsimp only
        simp only [Option.map_some']
        refine congrArg (Prod.mk true) (congrArg some ?_)
        have hlt : st.length < (st ++ [urlParse (urlString
            ((st[p]?).getD ⟨[], [], []⟩))]).length := by
          rw [List.length_append]
          simp
        simp only [List.getD_eq_getElem?_getD, List.getElem?_set_eq_of_lt _ hlt]
        rfl

/-- Witness for C9: a one-cell heap holding the sample URL. -/
theorem cleanLinkHeap_no_mutation_witness :
    (∀ i, i < [sampleCleanURL].length →
      (cleanLinkHeap [sampleCleanURL] 0 sampleClean).1.getD i ⟨[], [], []⟩ =
        [sampleCleanURL].getD i ⟨[], [], []⟩) ∧
    (∀ q, (cleanLinkHeap [sampleCleanURL] 0 sampleClean).2.2 = some q →
      q ≠ 0 ∧ q < (cleanLinkHeap [sampleCleanURL] 0 sampleClean).1.length) ∧
    ((cleanLinkHeap [sampleCleanURL] 0 sampleClean).2.1,
      ((cleanLinkHeap [sampleCleanURL] 0 sampleClean).2.2).map
        (fun q => (cleanLinkHeap [sampleCleanURL] 0 sampleClean).1.getD q
          ⟨[], [], []⟩)) =
      cleanLink ([sampleCleanURL].getD 0 ⟨[], [], []⟩) sampleClean :=
  cleanLinkHeap_no_mutation [sampleCleanURL] 0 sampleClean (by decide)

end Lectio
